import Mathlib

/-!
# A model of the dotenv parsing / substitution / serialization engine

This file embeds the dotenv engine of the repository (line splitter, line
parser, substitution engine, document reader, serializer, and environment
loader) as executable Lean definitions, and proves the behavioural claims
made by the specification about them.

The engine itself is modelled from the specification (its implementation is
exercised by the repository's test-suite, which drives `parseLine`, `Parse`,
`Read`, `Marshal`, `Unmarshal`, `Load` and `Overload`); every definition
below carries a doc comment naming the part of the system it models, and the
concrete test cases of the repository's test file are re-checked against the
model as theorems.

Strings are processed as `List Char`; thin `String` wrappers give the
engine its public signatures.
-/

deriving instance DecidableEq for Except

namespace Dotenv

/-- An environment mapping: an ordered association list from keys to values.
Models both the Preset Mapping accumulated during a parse and the Resolved
Mapping returned by a parse (Go `map[string]string` plus insertion order). -/
abbrev Env := List (String × String)

/-- A caller-supplied lookup function, Go shape `(name) -> (value, found)`. -/
abbrev Lookup := String → Option String

/-- Modelled from the spec: whitespace characters recognized when trimming
keys and values (space, tab, carriage return). The newline is *not*
whitespace here: it separates logical lines. -/
def isSpaceChar (c : Char) : Bool :=
  c = ' ' || c = '\t' || c = '\r'

/-- Characters a bare `$NAME` reference name may contain: alphanumerics and
underscore (spec section 4.3). -/
def isNameChar (c : Char) : Bool :=
  c.isAlpha || c.isDigit || c = '_'

/-- Drop leading whitespace. -/
def trimLeftL (s : List Char) : List Char :=
  s.dropWhile (fun c => isSpaceChar c)

/-- Drop trailing whitespace. -/
def trimRightL (s : List Char) : List Char :=
  (trimLeftL s.reverse).reverse

/-- Drop leading and trailing whitespace. -/
def trimL (s : List Char) : List Char :=
  trimRightL (trimLeftL s)

/-- Lookup in an environment: value of the first entry with the given key. -/
def lookupEnv (m : Env) (k : String) : Option String :=
  match m with
  | [] => none
  | (k', v) :: rest => if k' = k then some v else lookupEnv rest k

/-- Set a key in an environment: overwrite in place if present (last
assignment wins), else append (insertion order preserved). -/
def setEnv (m : Env) (k v : String) : Env :=
  match m with
  | [] => [(k, v)]
  | (k', v') :: rest =>
      if k' = k then (k, v) :: rest else (k', v') :: setEnv rest k v

/-! ## Line Splitter (spec section 4.1)

Scans the raw document, splitting it into logical lines.  A newline inside an
open quote region (a quote region opens at an unescaped quote character seen
after the `=` / `:` separator) does not terminate the logical line; an
escaping backslash protects the following character from being interpreted
as a quote. Blank and comment lines are then filtered out. -/

/-- Modelled from the spec: the line splitter's scanner.  `acc` is the
current logical line, reversed; `q` is the open quote character, if any;
`sep` records whether the `=` / `:` separator was already seen on this line
(quote regions only open after it). -/
def splitGo : List Char → List Char → Option Char → Bool → List (List Char)
  | [], acc, _, _ => [acc.reverse]
  | c :: rest, acc, q, sep =>
      if c = '\\' then
        match rest with
        | [] => [(c :: acc).reverse]
        | c2 :: rest2 =>
            if q.isNone && c2 = '\n' then
              ('\\' :: acc).reverse :: splitGo rest2 [] none false
            else
              splitGo rest2 (c2 :: '\\' :: acc) q sep
      else
        match q with
        | some qc =>
            if c = qc then splitGo rest (c :: acc) none sep
            else splitGo rest (c :: acc) (some qc) sep
        | none =>
            if c = '\n' then acc.reverse :: splitGo rest [] none false
            else if c = '=' || c = ':' then splitGo rest (c :: acc) none true
            else if sep && (c = '"' || c = '\'') then
              splitGo rest (c :: acc) (some c) sep
            else splitGo rest (c :: acc) none sep

/-- Modelled from the spec: split a raw document into logical lines and
discard blank lines and pure comment lines (empty after trimming, or first
non-blank character is `#`). -/
def logicalLines (s : List Char) : List (List Char) :=
  (splitGo s [] none false).filter
    (fun l => !(trimL l).isEmpty && (trimL l).head? != some '#')

/-! ## Line Parser helpers (spec section 4.2) -/

/-- Modelled from the spec: strip a leading `export` token, but only when it
is followed by at least one whitespace character; `exportFoo=2` keeps
`exportFoo` as the key. The input is assumed already left-trimmed. -/
def stripExport (s : List Char) : List Char :=
  if s.take 6 = ['e', 'x', 'p', 'o', 'r', 't'] then
    match s.drop 6 with
    | c :: rest => if isSpaceChar c then trimLeftL rest else s
    | [] => s
  else s

/-- Modelled from the spec: split a line at the first unescaped `=` or `:`
separator, returning the raw key part and the raw value part.  `none` when
the line has no separator (the malformed-line case). -/
def splitSep : List Char → Option (List Char × List Char)
  | [] => none
  | c :: rest =>
      if c = '\\' then
        match rest with
        | [] => none
        | c2 :: rest2 => (splitSep rest2).map (fun p => ('\\' :: c2 :: p.1, p.2))
      else if c = '=' || c = ':' then some ([], rest)
      else (splitSep rest).map (fun p => (c :: p.1, p.2))

/-- Modelled from the spec: scan for the matching unescaped closing quote
`q`; returns the raw content before it and the remainder after it, or `none`
when the quote is unterminated.  A backslash protects the following
character (the pair is kept verbatim in the content). -/
def extractQuoted (q : Char) : List Char → Option (List Char × List Char)
  | [] => none
  | c :: rest =>
      if c = '\\' then
        match rest with
        | [] => if c = q then some ([], []) else none
        | c2 :: rest2 => (extractQuoted q rest2).map (fun p => ('\\' :: c2 :: p.1, p.2))
      else if c = q then some ([], rest)
      else (extractQuoted q rest).map (fun p => (c :: p.1, p.2))

/-- Modelled from the spec: unescape the content of a double-quoted value:
`\n` becomes a newline, `\r` a carriage return, an escaped quote a quote,
`\\` a backslash, `\ ` a space; `\$` is kept intact for the substitution
pass (which treats it as an escaped literal dollar); a backslash before any
other character is dropped and the character kept literally. -/
def unescapeDQ : List Char → List Char
  | [] => []
  | c :: rest =>
      if c = '\\' then
        match rest with
        | [] => ['\\']
        | c2 :: rest2 =>
            if c2 = 'n' then '\n' :: unescapeDQ rest2
            else if c2 = 'r' then '\r' :: unescapeDQ rest2
            else if c2 = '$' then '\\' :: '$' :: unescapeDQ rest2
            else c2 :: unescapeDQ rest2
      else c :: unescapeDQ rest

/-- Modelled from the spec: strip a trailing `#...` inline comment from an
unquoted value.  A `#` at the start of the value or preceded by whitespace
begins the comment; a `#` with no preceding whitespace is part of the value.
`atStart` is true at the start of the value and after a whitespace char. -/
def stripCommentGo (atStart : Bool) : List Char → List Char
  | [] => []
  | c :: rest =>
      if atStart && c = '#' then []
      else c :: stripCommentGo (isSpaceChar c) rest

/-- Strip a trailing inline comment from an unquoted value. -/
def stripComment (s : List Char) : List Char :=
  stripCommentGo true s

/-! ## Substitution Engine (spec section 4.3)

A left-to-right scan expanding `$NAME` and `${NAME}` references, implemented
as a character-at-a-time state machine so that it is structurally
recursive. -/

/-- State of the substitution scanner. -/
inductive ExpSt : Type
  /-- Plain scanning. -/
  | normal : ExpSt
  /-- The previous character was a backslash. -/
  | esc : ExpSt
  /-- The previous character was an (unescaped) dollar. -/
  | dollar : ExpSt
  /-- Reading a bare reference name; `acc` holds it reversed. -/
  | name (acc : List Char) : ExpSt
  /-- Reading a `${...}` reference; `acc` holds the name so far, reversed. -/
  | brace (acc : List Char) : ExpSt

/-- Modelled from the spec: resolution precedence for one reference — the
Preset Mapping first, then the caller-supplied lookup, else empty string. -/
def resolveVar (p : Env) (l : Lookup) (name : String) : String :=
  match lookupEnv p name with
  | some v => v
  | none =>
      match l name with
      | some v => v
      | none => ""

/-- Dispatch one character from the `normal` state: output to emit (for a
plain character) and successor state. -/
def stepNormal (c : Char) : List Char × ExpSt :=
  if c = '\\' then ([], ExpSt.esc)
  else if c = '$' then ([], ExpSt.dollar)
  else ([c], ExpSt.normal)

/-- One transition of the substitution scanner: from state `st` on input
character `c`, the characters to emit and the successor state.  A `\$` pair
emits a literal `$` whose text is never re-scanned; a completed reference
emits its resolved value (presets first, then lookup, else empty). -/
def expStep (p : Env) (l : Lookup) (st : ExpSt) (c : Char) : List Char × ExpSt :=
  match st with
  | ExpSt.normal => stepNormal c
  | ExpSt.esc =>
      if c = '$' then (['$'], ExpSt.normal)
      else
        match stepNormal c with
        | (o, st') => ('\\' :: o, st')
  | ExpSt.dollar =>
      if c = '{' then ([], ExpSt.brace [])
      else if isNameChar c then ([], ExpSt.name [c])
      else
        match stepNormal c with
        | (o, st') => ('$' :: o, st')
  | ExpSt.name acc =>
      if isNameChar c then ([], ExpSt.name (c :: acc))
      else
        match stepNormal c with
        | (o, st') => ((resolveVar p l (String.mk acc.reverse)).data ++ o, st')
  | ExpSt.brace acc =>
      if c = '}' then ((resolveVar p l (String.mk acc.reverse)).data, ExpSt.normal)
      else ([], ExpSt.brace (c :: acc))

/-- Output still owed when the input ends in state `st`: a pending escape or
dollar is emitted literally, a pending bare name is resolved, an unclosed
`${...}` is kept literally. -/
def expFlush (p : Env) (l : Lookup) (st : ExpSt) : List Char :=
  match st with
  | ExpSt.normal => []
  | ExpSt.esc => ['\\']
  | ExpSt.dollar => ['$']
  | ExpSt.name acc => (resolveVar p l (String.mk acc.reverse)).data
  | ExpSt.brace acc => '$' :: '{' :: acc.reverse

/-- Run the substitution scanner from state `st` over the input. -/
def expandGo (p : Env) (l : Lookup) (st : ExpSt) : List Char → List Char
  | [] => expFlush p l st
  | c :: rest =>
      match expStep p l st c with
      | (o, st') => o ++ expandGo p l st' rest

/-- Modelled from the spec: the Substitution Engine, `expand(value, presets,
lookup)`.  Expands `$NAME` and `${NAME}` references left to right, one pass,
resolving each against the presets first, then the lookup, else empty;
`\$` is an escaped literal dollar. -/
def expandL (p : Env) (l : Lookup) (s : List Char) : List Char :=
  expandGo p l ExpSt.normal s

/-! ## Line Parser (spec section 4.2) -/

/-- The per-quoting-style processing of a (trimmed) raw value candidate:
double-quoted values are unescaped and substituted, retaining an
unterminated trailing quote literally; single-quoted values are returned
verbatim (again retaining an unterminated quote literally); unquoted values
lose a trailing inline comment, are right-trimmed and substituted. -/
def parseValue (p : Env) (l : Lookup) (cand : List Char) : String :=
  match cand with
  | '"' :: rest =>
      match extractQuoted '"' rest with
      | some (content, _) => String.mk (expandL p l (unescapeDQ content))
      | none => String.mk cand
  | '\'' :: rest =>
      match extractQuoted '\'' rest with
      | some (content, _) => String.mk content
      | none => String.mk cand
  | _ => String.mk (expandL p l (trimRightL (stripComment cand)))

/-- Modelled from the spec: `parseLine(line, presets)` with an explicit
lookup function (`parseLineWithLookup`).  Trims, strips an `export` prefix,
splits at the first separator (failing with a format error carrying the
offending raw line when there is none — the only parse-time failure), and
processes the value according to its quoting style via `parseValue`. -/
def parseLineL (line : List Char) (p : Env) (l : Lookup) :
    Except String (String × String) :=
  match splitSep (stripExport (trimLeftL line)) with
  | none => Except.error (String.mk line)
  | some (kpart, vpart) =>
      Except.ok (String.mk (trimL kpart), parseValue p l (trimL vpart))

/-- `parseLineWithLookup` on `String`s. -/
def parseLineWithLookup (line : String) (p : Env) (l : Lookup) :
    Except String (String × String) :=
  parseLineL line.data p l

/-- `parseLine(line, presets)`: no external lookup. -/
def parseLine (line : String) (p : Env) : Except String (String × String) :=
  parseLineL line.data p (fun _ => none)

/-! ## Document Reader (spec section 4.4) -/

/-- Modelled from the spec: fold the line parser over the logical lines,
threading each newly-resolved key back in as a preset for subsequent lines;
the first parse error aborts the whole parse. -/
def parseLinesGo (l : Lookup) : List (List Char) → Env → Except String Env
  | [], acc => Except.ok acc
  | line :: rest, acc =>
      match parseLineL line acc l with
      | Except.error e => Except.error e
      | Except.ok (k, v) => parseLinesGo l rest (setEnv acc k v)

/-- `ParseWithLookup`: parse a whole document with an external lookup
(the engine behind `ReadWithLookup`). -/
def ParseWithLookup (l : Lookup) (src : String) : Except String Env :=
  parseLinesGo l (logicalLines src.data) []

/-- `Parse(reader)`: parse a whole document with no external lookup. -/
def Parse (src : String) : Except String Env :=
  ParseWithLookup (fun _ => none) src

/-- `Unmarshal(text)`: identical to `Parse` on the in-memory text. -/
def Unmarshal (src : String) : Except String Env :=
  Parse src

/-! ## Serializer (spec section 4.5) -/

/-- Integer-literal test on the character list: an optional sign followed
by at least one digit. -/
def isIntLiteralL : List Char → Bool
  | [] => false
  | c :: rest =>
      if c = '-' || c = '+' then !rest.isEmpty && rest.all (fun d => d.isDigit)
      else (c :: rest).all (fun d => d.isDigit)

/-- Modelled from the spec: a value that parses entirely as an integer
literal (an optional sign followed by at least one digit) is emitted
unquoted by the serializer. -/
def isIntLiteral (s : String) : Bool :=
  isIntLiteralL s.data

/-- Modelled from the spec: the serializer's escaping for a double-quoted
output value: embedded double quotes, backslashes, newlines, carriage
returns and `!` are backslash-escaped (spec 4.5 names these explicitly,
leaving the set open — "a defined set … at minimum …"), and so is `$`,
which the same section's round-trip law requires: an unescaped `$` would be
re-expanded by the parser's substitution pass.  Every other character
(single quotes included) is emitted as is. -/
def escapeDQ : List Char → List Char
  | [] => []
  | c :: rest =>
      if c = '\n' then '\\' :: 'n' :: escapeDQ rest
      else if c = '\r' then '\\' :: 'r' :: escapeDQ rest
      else if c = '"' || c = '\\' || c = '!' || c = '$' then '\\' :: c :: escapeDQ rest
      else c :: escapeDQ rest

/-- One serialized line: `KEY=value` with the value unquoted when it is an
integer literal and double-quoted with escaping otherwise. -/
def renderEntry (k v : String) : String :=
  if isIntLiteral v then k ++ "=" ++ v
  else k ++ "=" ++ "\"" ++ String.mk (escapeDQ v.data) ++ "\""

/-- Lexicographic comparison of character lists (by code point). -/
def leChars : List Char → List Char → Bool
  | [], _ => true
  | _ :: _, [] => false
  | a :: as, b :: bs => if a = b then leChars as bs else decide (a < b)

/-- Lexicographic comparison of strings (by code point). -/
def strLe (a b : String) : Bool :=
  leChars a.data b.data

/-- Insert a string into a lexicographically sorted list of strings. -/
def insertStr (k : String) : List String → List String
  | [] => [k]
  | x :: rest => if strLe k x then k :: x :: rest else x :: insertStr k rest

/-- Lexicographic insertion sort of a list of strings. -/
def sortStr : List String → List String
  | [] => []
  | x :: rest => insertStr x (sortStr rest)

/-- Join lines with newlines. -/
def joinLines : List (List Char) → List Char
  | [] => []
  | [l] => l
  | l :: rest => l ++ '\n' :: joinLines rest

/-- The serialized lines of a mapping: one `KEY=value` line per key, keys in
lexicographically sorted order. -/
def marshalLines (m : Env) : List (List Char) :=
  (sortStr (m.map (fun e => e.1))).map
    (fun k => (renderEntry k ((lookupEnv m k).getD "")).data)

/-- Modelled from the spec: `Marshal(mapping)`: one `KEY=value` line per
key, keys sorted lexicographically, values quoted and escaped per
`renderEntry`. -/
def Marshal (m : Env) : String :=
  String.mk (joinLines (marshalLines m))

/-! ## Environment Loader (spec section 4.6) -/

/-- Modelled from the spec: apply a parsed mapping to an external store in
`Load` mode: a key is set only when the store does not already define it;
the rule applies against the live store state as each key is applied. -/
def applyLoad (store : Env) (m : Env) : Env :=
  match m with
  | [] => store
  | (k, v) :: rest =>
      applyLoad (if (lookupEnv store k).isSome then store else setEnv store k v) rest

/-- Modelled from the spec: apply a parsed mapping to an external store in
`Overload` mode: every key is set, overwriting any existing value. -/
def applyOverload (store : Env) (m : Env) : Env :=
  match m with
  | [] => store
  | (k, v) :: rest => applyOverload (setEnv store k v) rest

/-! ## Predicates used to state the claims -/

/-- `qSafe q content` says the scanner for a closing quote `q` runs through
`content` without finding one: no unescaped occurrence of `q`, and no
dangling final backslash (which would escape the closing quote that
follows).  This is what "the surrounding quotes match" means for a value
written as `q ++ content ++ q`. -/
def qSafe (q : Char) : List Char → Bool
  | [] => true
  | c :: rest =>
      if c = '\\' then
        match rest with
        | [] => false
        | _ :: rest2 => qSafe q rest2
      else !(c = q) && qSafe q rest

/-- Characters of ordinary dotenv keys: alphanumerics, `_`, `.` and `-`. -/
def isKeyChar (c : Char) : Bool :=
  c.isAlpha || c.isDigit || c = '_' || c = '.' || c = '-'

/-- Characters of integer literals: digits and the two signs. -/
def isIntChar (c : Char) : Bool :=
  c.isDigit || c = '-' || c = '+'

/-- The separator scan runs through these characters without splitting: no
unescaped `=`, `:` or newline, no escaped newline (which would end the
logical line), and no dangling final backslash (which would escape the
separator that follows).  Every key produced by a parse satisfies this —
the parser split the original line after exactly these characters. -/
def keySepSafe : List Char → Bool
  | [] => true
  | c :: rest =>
      if c = '\\' then
        match rest with
        | [] => false
        | c2 :: rest2 => !(c2 = '\n') && keySepSafe rest2
      else !(c = '=') && !(c = ':') && !(c = '\n') && keySepSafe rest

/-- The key does not begin with the token `export` followed by whitespace
(such a key would have the token stripped when its serialized line is
re-parsed). -/
def noExportPrefix (kd : List Char) : Bool :=
  !(decide (kd.take 6 = ['e', 'x', 'p', 'o', 'r', 't']) &&
    (match kd.drop 6 with
     | c :: _ => isSpaceChar c
     | [] => false))

/-- Keys for which serialization is inverted by the parser (all keys a
parse produces, minus the shapes the counterexample exhibits): already
trimmed, separator-scan safe, not beginning with `#` (the serialized line
would be filtered as a comment) and not beginning with `export` plus
whitespace. -/
def plainKey (k : String) : Bool :=
  decide (trimL k.data = k.data) && keySepSafe k.data && noExportPrefix k.data &&
    (k.data.head? != some '#')

/-- The canonical entry list produced by re-parsing a serialized mapping:
one entry per key, keys sorted. -/
def sortedEntries (m : Env) : Env :=
  (sortStr (m.map (fun e => e.1))).map (fun k => (k, (lookupEnv m k).getD ""))

/-- `Load` of one document into a store (the parse step of `Load` followed
by the non-destructive application of the mapping). -/
def LoadDoc (doc : String) (store : Env) : Except String Env :=
  (Parse doc).map (fun m => applyLoad store m)

/-- `Overload` of one document into a store. -/
def OverloadDoc (doc : String) (store : Env) : Except String Env :=
  (Parse doc).map (fun m => applyOverload store m)

/-! ## Basic lemmas -/

theorem trimLeftL_eq_self {l : List Char} (h : ∀ c ∈ l, isSpaceChar c = false) :
    trimLeftL l = l := by
  unfold trimLeftL
  cases l with
  | nil => rfl
  | cons a l => simp [List.dropWhile_cons, h a (by simp)]

theorem trimRightL_eq_self {l : List Char} (h : ∀ c ∈ l, isSpaceChar c = false) :
    trimRightL l = l := by
  unfold trimRightL
  rw [trimLeftL_eq_self (by intro c hc; exact h c (by simpa using hc))]
  simp

theorem trimL_eq_self {l : List Char} (h : ∀ c ∈ l, isSpaceChar c = false) :
    trimL l = l := by
  unfold trimL
  rw [trimLeftL_eq_self h, trimRightL_eq_self h]

theorem lookupEnv_setEnv_self (m : Env) (k v : String) :
    lookupEnv (setEnv m k v) k = some v := by
  induction m with
  | nil => simp [setEnv, lookupEnv]
  | cons e rest ih =>
      by_cases h : e.1 = k
      · simp [setEnv, lookupEnv, h]
      · simp [setEnv, lookupEnv, h, ih]

theorem lookupEnv_setEnv_other (m : Env) (k v : String) (q : String) (h : k ≠ q) :
    lookupEnv (setEnv m k v) q = lookupEnv m q := by
  induction m with
  | nil => simp [setEnv, lookupEnv, h]
  | cons e rest ih =>
      by_cases he : e.1 = k
      · simp [setEnv, lookupEnv, he, h]
      · simp [setEnv, lookupEnv, he, ih]

/-! ## Substitution engine lemmas -/

/-- A character list containing no dollar sign passes through the
substitution scanner unchanged (also from a pending-escape state, which
re-emits its backslash). -/
theorem expandGo_no_dollar (p : Env) (lk : Lookup) {l : List Char}
    (h : ∀ c ∈ l, c ≠ '$') :
    expandGo p lk ExpSt.normal l = l ∧ expandGo p lk ExpSt.esc l = '\\' :: l := by
  induction l with
  | nil => simp [expandGo, expFlush]
  | cons c rest ih =>
      have hc : c ≠ '$' := h c (by simp)
      have ih' := ih (fun c hc => h c (by simp [hc]))
      constructor
      · by_cases hb : c = '\\'
        · subst hb
          simp [expandGo, expStep, stepNormal, ih'.2]
        · simp [expandGo, expStep, stepNormal, hb, hc, ih'.1]
      · by_cases hb : c = '\\'
        · subst hb
          simp [expandGo, expStep, stepNormal, hc, ih'.2]
        · simp [expandGo, expStep, stepNormal, hb, hc, ih'.1]

/-- Reading a run of name characters in the bare-reference state resolves
the accumulated name at the end of input. -/
theorem expandGo_name_run (p : Env) (lk : Lookup) {s : List Char}
    (h : ∀ c ∈ s, isNameChar c = true) (acc : List Char) :
    expandGo p lk (ExpSt.name acc) s =
      (resolveVar p lk (String.mk (acc.reverse ++ s))).data := by
  induction s generalizing acc with
  | nil => simp [expandGo, expFlush]
  | cons c rest ih =>
      have hc : isNameChar c = true := h c (by simp)
      have := ih (fun c hc => h c (by simp [hc])) (c :: acc)
      simp only [expandGo, expStep, hc, if_true]
      rw [this]
      simp

/-- Reading up to the closing brace in the `${...}` state resolves the
accumulated name and continues after the brace. -/
theorem expandGo_brace_run (p : Env) (lk : Lookup) {s : List Char}
    (h : ∀ c ∈ s, c ≠ '}') (acc : List Char) (rest : List Char) :
    expandGo p lk (ExpSt.brace acc) (s ++ '}' :: rest) =
      (resolveVar p lk (String.mk (acc.reverse ++ s))).data ++
        expandGo p lk ExpSt.normal rest := by
  induction s generalizing acc with
  | nil => simp [expandGo, expStep]
  | cons c s ih =>
      have hc : c ≠ '}' := h c (by simp)
      have := ih (fun c hc => h c (by simp [hc])) (c :: acc)
      simp only [List.cons_append, expandGo, expStep, hc, if_false, if_neg hc,
        List.append_eq]
      rw [this]
      simp

/-! ## Parser-stage lemmas -/

/-- When the content is safe for quote `q`, the closing-quote scanner finds
the closing quote right after it and returns the content verbatim. -/
theorem extractQuoted_append {q : Char} (hq : ¬(q = '\\')) :
    ∀ (content : List Char), qSafe q content = true →
      ∀ (rest : List Char), extractQuoted q (content ++ q :: rest) = some (content, rest)
  | [] => by
      intro _ rest
      unfold extractQuoted
      simp [hq]
  | c :: cs => by
      intro h rest
      by_cases hb : c = '\\'
      · subst hb
        cases cs with
        | nil => simp [qSafe] at h
        | cons c2 cs2 =>
            have h' : qSafe q cs2 = true := by simpa [qSafe] using h
            have ih := extractQuoted_append hq cs2 h' rest
            simp only [List.cons_append]
            unfold extractQuoted
            simp [ih]
      · have h' : ¬(c = q) ∧ qSafe q cs = true := by
          unfold qSafe at h
          simpa [hb] using h
        have ih := extractQuoted_append hq cs h'.2 rest
        simp only [List.cons_append]
        unfold extractQuoted
        simp [hb, h'.1, ih]

theorem mkData (s : String) : String.mk s.data = s := by
  cases s
  rfl

theorem trimLeftL_cons {c : Char} (l : List Char) (h : isSpaceChar c = false) :
    trimLeftL (c :: l) = c :: l := by
  simp [trimLeftL, List.dropWhile_cons, h]

theorem trimRightL_concat {d : Char} (l : List Char) (h : isSpaceChar d = false) :
    trimRightL (l ++ [d]) = l ++ [d] := by
  unfold trimRightL
  rw [List.reverse_append, show ([d] : List Char).reverse = [d] from rfl,
    List.singleton_append, trimLeftL_cons _ h]
  simp

theorem trimL_edges {c d : Char} (mid : List Char)
    (hc : isSpaceChar c = false) (hd : isSpaceChar d = false) :
    trimL (c :: (mid ++ [d])) = c :: (mid ++ [d]) := by
  unfold trimL
  rw [trimLeftL_cons _ hc, show c :: (mid ++ [d]) = (c :: mid) ++ [d] from rfl,
    trimRightL_concat _ hd]

theorem trimL_singleton {c : Char} (h : isSpaceChar c = false) :
    trimL [c] = [c] := by
  unfold trimL
  rw [trimLeftL_cons _ h, show [c] = [] ++ [c] from rfl, trimRightL_concat _ h]

theorem unescapeDQ_eq_self {l : List Char} (h : ∀ c ∈ l, ¬(c = '\\')) :
    unescapeDQ l = l := by
  induction l with
  | nil => rfl
  | cons c cs ih =>
      unfold unescapeDQ
      simp [h c (by simp), ih (fun c hc => h c (by simp [hc]))]

theorem stripCommentGo_eq_self {l : List Char} (h : ∀ c ∈ l, ¬(c = '#')) :
    ∀ b, stripCommentGo b l = l := by
  induction l with
  | nil => intro b; rfl
  | cons c cs ih =>
      intro b
      unfold stripCommentGo
      simp [h c (by simp), ih (fun c hc => h c (by simp [hc]))]

theorem splitSep_key_append {k : List Char}
    (h : ∀ c ∈ k, ¬(c = '\\') ∧ ¬(c = '=') ∧ ¬(c = ':')) (w : List Char) :
    splitSep (k ++ '=' :: w) = some (k, w) := by
  induction k with
  | nil =>
      unfold splitSep
      simp
  | cons c cs ih =>
      have hc := h c (by simp)
      have := ih (fun c hc => h c (by simp [hc]))
      simp only [List.cons_append]
      unfold splitSep
      simp [hc.1, hc.2.1, hc.2.2, this]

theorem stripExport_of_take_ne {l : List Char}
    (h : ¬(l.take 6 = ['e', 'x', 'p', 'o', 'r', 't'])) : stripExport l = l := by
  unfold stripExport
  rw [if_neg h]

theorem stripExport_of_nonspace {l : List Char} {c : Char}
    (h1 : (l.drop 6).head? = some c) (h2 : isSpaceChar c = false) :
    stripExport l = l := by
  unfold stripExport
  by_cases ht : l.take 6 = ['e', 'x', 'p', 'o', 'r', 't']
  · rw [if_pos ht]
    cases hd : l.drop 6 with
    | nil => simp [hd] at h1
    | cons c2 rest =>
        rw [hd] at h1
        simp only [List.head?_cons, Option.some.injEq] at h1
        subst h1
        simp [h2]
  · rw [if_neg ht]

/-- A successful separator split means the line parses successfully
(whatever the presets and lookup). -/
theorem parseLineL_isOk_of_split {line : List Char} {pr : List Char × List Char}
    (h : splitSep (stripExport (trimLeftL line)) = some pr) (p : Env) (l : Lookup) :
    (parseLineL line p l).isOk = true := by
  unfold parseLineL
  rw [h]
  obtain ⟨kp, vp⟩ := pr
  rfl

theorem parseValue_squote (p : Env) (l : Lookup) (rest : List Char) :
    parseValue p l ('\'' :: rest) =
      match extractQuoted '\'' rest with
      | some (content, _) => String.mk content
      | none => String.mk ('\'' :: rest) := rfl

theorem parseValue_dquote (p : Env) (l : Lookup) (rest : List Char) :
    parseValue p l ('"' :: rest) =
      match extractQuoted '"' rest with
      | some (content, _) => String.mk (expandL p l (unescapeDQ content))
      | none => String.mk ('"' :: rest) := rfl

theorem parseValue_unquoted {c : Char} (p : Env) (l : Lookup) (rest : List Char)
    (h1 : ¬(c = '"')) (h2 : ¬(c = '\'')) :
    parseValue p l (c :: rest) =
      String.mk (expandL p l (trimRightL (stripComment (c :: rest)))) := by
  unfold parseValue
  split
  · rename_i heq
    injection heq with heq1 _
    exact absurd heq1 h1
  · rename_i heq
    injection heq with heq1 _
    exact absurd heq1 h2
  · rfl

/-- Unfolds `parseLineL` on a line whose separator split succeeds. -/
theorem parseLineL_eq_of_split {line kpart vpart : List Char} (p : Env) (l : Lookup)
    (h : splitSep (stripExport (trimLeftL line)) = some (kpart, vpart)) :
    parseLineL line p l
      = Except.ok (String.mk (trimL kpart), parseValue p l (trimL vpart)) := by
  unfold parseLineL
  rw [h]

theorem stripExport_cons_ne_e {c : Char} (l : List Char) (h : ¬(c = 'e')) :
    stripExport (c :: l) = c :: l := by
  apply stripExport_of_take_ne
  rw [show (c :: l).take 6 = c :: l.take 5 from rfl]
  intro hcon
  injection hcon with h1 _
  exact h h1

/-! ## Claims -/

/-- **C5.** For every single-quoted value, `parseLine` strips only the
matching surrounding single quotes and returns the content otherwise
verbatim: no escape-sequence processing, no variable substitution, and no
inline-comment stripping.  `qSafe` says the surrounding quotes match (the
content itself contains no unescaped single quote and no dangling final
backslash). -/
theorem single_quoted_value_verbatim (content : String) (p : Env) (l : Lookup)
    (h : qSafe '\'' content.data = true) :
    parseLineWithLookup ("KEY='" ++ content ++ "'") p l = Except.ok ("KEY", content) := by
  unfold parseLineWithLookup
  rw [show ("KEY='" ++ content ++ "'").data
      = 'K' :: 'E' :: 'Y' :: '=' :: '\'' :: (content.data ++ ['\'']) by
    rw [String.data_append, String.data_append]; rfl]
  have hsplit : splitSep (stripExport (trimLeftL
      ('K' :: 'E' :: 'Y' :: '=' :: '\'' :: (content.data ++ ['\'']))))
      = some (['K', 'E', 'Y'], '\'' :: (content.data ++ ['\''])) := by
    rw [trimLeftL_cons _ (by decide), stripExport_cons_ne_e _ (by decide),
      show ('K' :: 'E' :: 'Y' :: '=' :: '\'' :: (content.data ++ ['\'']))
        = ['K', 'E', 'Y'] ++ '=' :: ('\'' :: (content.data ++ ['\''])) from rfl,
      splitSep_key_append (by decide)]
  rw [parseLineL_eq_of_split p l hsplit]
  have htrim : trimL ('\'' :: (content.data ++ ['\'']))
      = '\'' :: (content.data ++ ['\'']) := trimL_edges content.data (by decide) (by decide)
  rw [htrim, parseValue_squote,
    show content.data ++ ['\''] = content.data ++ '\'' :: [] from rfl,
    extractQuoted_append (by decide) content.data h []]
  rfl

/-- Witness for C5: a single-quoted value containing a `$` reference, a
`#`, and a backslash escape comes back verbatim. -/
theorem single_quoted_value_verbatim_witness :
    parseLineWithLookup "KEY='quote $FOO #x \\n'" [("FOO", "seen")] (fun _ => none)
      = Except.ok ("KEY", "quote $FOO #x \\n") :=
  single_quoted_value_verbatim "quote $FOO #x \\n" [("FOO", "seen")] (fun _ => none) (by decide)

/-- **C6.** `parseLine` strips a leading `export` token only when it is
followed by at least one whitespace character (space or tab); when `export`
is merely a prefix of a longer identifier the full identifier is kept as
the key. -/
theorem export_prefix_stripping :
    (∀ rest : List Char, stripExport ('e' :: 'x' :: 'p' :: 'o' :: 'r' :: 't' :: ' ' :: rest)
        = trimLeftL rest) ∧
    (∀ rest : List Char, stripExport ('e' :: 'x' :: 'p' :: 'o' :: 'r' :: 't' :: '\t' :: rest)
        = trimLeftL rest) ∧
    (∀ (c : Char) (rest : List Char), isSpaceChar c = false →
      stripExport ('e' :: 'x' :: 'p' :: 'o' :: 'r' :: 't' :: c :: rest)
        = 'e' :: 'x' :: 'p' :: 'o' :: 'r' :: 't' :: c :: rest) ∧
    parseLine "export OPTION_A=2" [] = Except.ok ("OPTION_A", "2") ∧
    parseLine "exportFoo=2" [] = Except.ok ("exportFoo", "2") ∧
    parseLine "exportFOO=2" [] = Except.ok ("exportFOO", "2") ∧
    parseLine "export_FOO =2" [] = Except.ok ("export_FOO", "2") ∧
    parseLine "export.FOO= 2" [] = Except.ok ("export.FOO", "2") := by
  refine ⟨?_, ?_, ?_, by decide, by decide, by decide, by decide, by decide⟩
  · intro rest
    unfold stripExport
    simp [isSpaceChar]
  · intro rest
    unfold stripExport
    simp [isSpaceChar]
  · intro c rest h
    unfold stripExport
    simp [h]

/-- Witness for C6: the conditional conjuncts applied at concrete inputs
(`export OPTION_A=2` strips, `export_FOO =2` does not strip at `_`). -/
theorem export_prefix_stripping_witness :
    stripExport ('e' :: 'x' :: 'p' :: 'o' :: 'r' :: 't' :: ' ' :: "OPTION_A=2".data)
        = trimLeftL "OPTION_A=2".data ∧
    stripExport ('e' :: 'x' :: 'p' :: 'o' :: 'r' :: 't' :: '_' :: "FOO =2".data)
        = 'e' :: 'x' :: 'p' :: 'o' :: 'r' :: 't' :: '_' :: "FOO =2".data :=
  ⟨export_prefix_stripping.1 "OPTION_A=2".data,
    export_prefix_stripping.2.2.1 '_' "FOO =2".data (by decide)⟩

/-- **C7.** A double-quoted value whose closing quote is missing is not a
parse error: the unmatched quote character is kept literally in the value
(`KEY="value` parses to `"value`, `KEY="` to `"`), and a line of this shape
always parses successfully. -/
theorem unterminated_double_quote_lenient :
    parseLine "KEY=\"value" [] = Except.ok ("KEY", "\"value") ∧
    parseLine "KEY=\"" [] = Except.ok ("KEY", "\"") ∧
    (∀ (content : String) (p : Env) (l : Lookup),
      (parseLineWithLookup ("KEY=\"" ++ content) p l).isOk = true) := by
  refine ⟨by decide, by decide, ?_⟩
  intro content p l
  unfold parseLineWithLookup
  rw [show ("KEY=\"" ++ content).data = 'K' :: 'E' :: 'Y' :: '=' :: '"' :: content.data by
    rw [String.data_append]; rfl]
  apply parseLineL_isOk_of_split
  rw [trimLeftL_cons _ (by decide), stripExport_cons_ne_e _ (by decide),
    show ('K' :: 'E' :: 'Y' :: '=' :: '"' :: content.data)
      = ['K', 'E', 'Y'] ++ '=' :: ('"' :: content.data) from rfl,
    splitSep_key_append (by decide)]

/-- **C10.** In a double-quoted value, a backslash preceding a character
with no defined escape meaning is dropped and the character kept literally;
`FOO="bar\n\ b\az"` parses to `bar<newline> baz` with `\a` becoming `a`. -/
theorem backslash_unknown_escape_dropped :
    (∀ (c : Char) (s : List Char), ¬(c = 'n') → ¬(c = 'r') → ¬(c = '"') →
      ¬(c = '\\') → ¬(c = ' ') → ¬(c = '$') →
      unescapeDQ ('\\' :: c :: s) = c :: unescapeDQ s) ∧
    parseLine "FOO=\"bar\\n\\ b\\az\"" [] = Except.ok ("FOO", "bar\n baz") := by
  refine ⟨?_, by decide⟩
  intro c s hn hr _ _ _ hd
  conv_lhs => unfold unescapeDQ
  simp [hn, hr, hd]

/-- Witness for C10: `\a` inside a double-quoted value loses the backslash
and keeps the `a`. -/
theorem backslash_unknown_escape_dropped_witness :
    unescapeDQ ('\\' :: 'a' :: "z".data) = 'a' :: unescapeDQ "z".data :=
  backslash_unknown_escape_dropped.1 'a' "z".data (by decide) (by decide) (by decide)
    (by decide) (by decide) (by decide)

/-- A line whose (trimmed, export-stripped) text has no separator makes the
whole document parse abort with an error. -/
theorem parseLinesGo_error_of_bad (l : Lookup) :
    ∀ (lines : List (List Char)) (acc : Env),
      (∃ bad ∈ lines, splitSep (stripExport (trimLeftL bad)) = none) →
      ∃ e, parseLinesGo l lines acc = Except.error e
  | [], acc => by
      intro hbad
      simp at hbad
  | line :: rest, acc => by
      intro hbad
      cases hpl : parseLineL line acc l with
      | error e =>
          refine ⟨e, ?_⟩
          unfold parseLinesGo
          rw [hpl]
      | ok kv =>
          obtain ⟨bad, hmem, hsep⟩ := hbad
          rcases List.mem_cons.mp hmem with heq | hmem'
          · subst heq
            unfold parseLineL at hpl
            rw [hsep] at hpl
            cases hpl
          · obtain ⟨e, he⟩ := parseLinesGo_error_of_bad l rest (setEnv acc kv.1 kv.2) ⟨bad, hmem', hsep⟩
            refine ⟨e, ?_⟩
            unfold parseLinesGo
            rw [hpl]
            obtain ⟨k, v⟩ := kv
            exact he

/-- **C4.** A line with no recognizable `=` or `:` separator (and not
blank/comment) fails with a format error carrying the offending line text
(`lol$wut` is such a line); this is the only parse-time failure (a line
whose separator is found always parses); and during a document parse the
first such line aborts the whole parse with that error and no partial
mapping (the concrete document shows the abort). -/
theorem no_separator_format_error :
    (∀ (p : Env) (l : Lookup), parseLineWithLookup "lol$wut" p l = Except.error "lol$wut") ∧
    (∀ (line : List Char) (p : Env) (l : Lookup) (e : String),
      parseLineL line p l = Except.error e → e = String.mk line) ∧
    (∀ (line : List Char) (p : Env) (l : Lookup) (pr : List Char × List Char),
      splitSep (stripExport (trimLeftL line)) = some pr →
      (parseLineL line p l).isOk = true) ∧
    (∀ (l : Lookup) (src : String),
      (∃ bad ∈ logicalLines src.data, splitSep (stripExport (trimLeftL bad)) = none) →
      ∃ e, ParseWithLookup l src = Except.error e) ∧
    Parse "OPTION_A=1\nlol$wut\nOPTION_B=2" = Except.error "lol$wut" := by
  refine ⟨?_, ?_, ?_, ?_, by decide⟩
  · intro p l
    rfl
  · intro line p l e h
    unfold parseLineL at h
    split at h
    · injection h with h1
      exact h1.symm
    · cases h
  · intro line p l pr h
    exact parseLineL_isOk_of_split h p l
  · intro l src hbad
    exact parseLinesGo_error_of_bad l (logicalLines src.data) [] hbad

/-- Witness for C4: the conditional conjuncts applied at concrete inputs; a
document containing `lol$wut` aborts with an error. -/
theorem no_separator_format_error_witness :
    ("x" : String) = String.mk "x".data ∧
    (parseLineL "A=1".data [] (fun _ => none)).isOk = true ∧
    (∃ e, ParseWithLookup (fun _ => none) "A=1\nlol$wut" = Except.error e) := by
  refine ⟨?_, ?_, ?_⟩
  · exact (no_separator_format_error.2.1 "x".data [] (fun _ => none) "x" (by decide)).symm
  · exact no_separator_format_error.2.2.1 "A=1".data [] (fun _ => none) ("A".data, "1".data) (by decide)
  · exact no_separator_format_error.2.2.2.1 (fun _ => none) "A=1\nlol$wut"
      ⟨"lol$wut".data, by decide, by decide⟩

theorem not_space_of_nameChar {c : Char} (h : isNameChar c = true) :
    isSpaceChar c = false := by
  cases hs : isSpaceChar c with
  | false => rfl
  | true =>
      exfalso
      unfold isSpaceChar at hs
      rcases Bool.or_eq_true_iff.mp hs with h1 | h2
      · rcases Bool.or_eq_true_iff.mp h1 with ha | hb
        · rw [decide_eq_true_eq.mp ha] at h
          exact Bool.false_ne_true h
        · rw [decide_eq_true_eq.mp hb] at h
          exact Bool.false_ne_true h
      · rw [decide_eq_true_eq.mp h2] at h
        exact Bool.false_ne_true h

theorem ne_of_nameChar {c x : Char} (h : isNameChar c = true)
    (hx : isNameChar x = false) : ¬(c = x) := by
  rintro rfl
  rw [h] at hx
  cases hx

theorem qSafe_of_all {q : Char} {l : List Char}
    (h : ∀ c ∈ l, ¬(c = '\\') ∧ ¬(c = q)) : qSafe q l = true := by
  induction l with
  | nil => rfl
  | cons c cs ih =>
      have hc := h c (by simp)
      unfold qSafe
      simp [hc.1, hc.2, ih (fun c hc => h c (by simp [hc]))]

/-- **C8.** A backslash immediately preceding a `$` reference escapes it:
the substitution is skipped for that occurrence even when the referenced
name is defined, the backslash is consumed, and the literal `$NAME` text
remains; `Parse` of `FOO="foo\$BAR"` yields `foo$BAR`. -/
theorem escaped_dollar_not_expanded :
    (∀ (s : String) (p : Env) (l : Lookup), s.data.all isNameChar = true →
      parseLineWithLookup ("FOO=\"foo\\$" ++ s ++ "\"") p l
        = Except.ok ("FOO", "foo$" ++ s)) ∧
    Parse "FOO=\"foo\\$BAR\"" = Except.ok [("FOO", "foo$BAR")] := by
  refine ⟨?_, by decide⟩
  intro s p l hname
  obtain ⟨sd⟩ := s
  simp only [List.all_eq_true] at hname
  have hnb : ∀ c ∈ sd, ¬(c = '\\') := fun c hc => ne_of_nameChar (hname c hc) (by decide)
  have hnq : ∀ c ∈ sd, ¬(c = '"') := fun c hc => ne_of_nameChar (hname c hc) (by decide)
  have hnd : ∀ c ∈ sd, ¬(c = '$') := fun c hc => ne_of_nameChar (hname c hc) (by decide)
  unfold parseLineWithLookup
  rw [show ("FOO=\"foo\\$" ++ String.mk sd ++ "\"").data
      = 'F' :: 'O' :: 'O' :: '=' :: '"' :: (('f' :: 'o' :: 'o' :: '\\' :: '$' :: sd) ++ ['"']) by
    rw [String.data_append, String.data_append]
    simp]
  have hsplit : splitSep (stripExport (trimLeftL
      ('F' :: 'O' :: 'O' :: '=' :: '"' :: (('f' :: 'o' :: 'o' :: '\\' :: '$' :: sd) ++ ['"']))))
      = some (['F', 'O', 'O'], '"' :: (('f' :: 'o' :: 'o' :: '\\' :: '$' :: sd) ++ ['"'])) := by
    rw [trimLeftL_cons _ (by decide), stripExport_cons_ne_e _ (by decide),
      show ('F' :: 'O' :: 'O' :: '=' :: '"' :: (('f' :: 'o' :: 'o' :: '\\' :: '$' :: sd) ++ ['"']))
        = ['F', 'O', 'O'] ++ '=' :: ('"' :: (('f' :: 'o' :: 'o' :: '\\' :: '$' :: sd) ++ ['"'])) from rfl,
      splitSep_key_append (by decide)]
  rw [parseLineL_eq_of_split p l hsplit]
  have htrim : trimL ('"' :: (('f' :: 'o' :: 'o' :: '\\' :: '$' :: sd) ++ ['"']))
      = '"' :: (('f' :: 'o' :: 'o' :: '\\' :: '$' :: sd) ++ ['"']) :=
    trimL_edges _ (by decide) (by decide)
  have hsafe : qSafe '"' ('f' :: 'o' :: 'o' :: '\\' :: '$' :: sd) = true := by
    rw [show qSafe '"' ('f' :: 'o' :: 'o' :: '\\' :: '$' :: sd) = qSafe '"' sd from rfl]
    exact qSafe_of_all (fun c hc => ⟨hnb c hc, hnq c hc⟩)
  rw [htrim, parseValue_dquote,
    show ('f' :: 'o' :: 'o' :: '\\' :: '$' :: sd) ++ ['"']
      = ('f' :: 'o' :: 'o' :: '\\' :: '$' :: sd) ++ '"' :: [] from rfl,
    extractQuoted_append (by decide) _ hsafe []]
  show Except.ok (String.mk (trimL ['F', 'O', 'O']),
      String.mk (expandL p l (unescapeDQ ('f' :: 'o' :: 'o' :: '\\' :: '$' :: sd))))
    = Except.ok ("FOO", "foo$" ++ String.mk sd)
  rw [show unescapeDQ ('f' :: 'o' :: 'o' :: '\\' :: '$' :: sd)
      = 'f' :: 'o' :: 'o' :: '\\' :: '$' :: unescapeDQ sd from rfl,
    unescapeDQ_eq_self hnb]
  rw [show expandL p l ('f' :: 'o' :: 'o' :: '\\' :: '$' :: sd)
      = 'f' :: 'o' :: 'o' :: '$' :: expandGo p l ExpSt.normal sd from rfl,
    (expandGo_no_dollar p l hnd).1]
  rw [show trimL ['F', 'O', 'O'] = ['F', 'O', 'O'] from by decide]
  rfl

/-- Witness for C8: the escape is honoured even when `BAR` is a defined
preset and the lookup would also find it. -/
theorem escaped_dollar_not_expanded_witness :
    parseLineWithLookup ("FOO=\"foo\\$" ++ "BAR" ++ "\"") [("BAR", "preset")]
      (fun _ => some "lookedup") = Except.ok ("FOO", "foo$" ++ "BAR") :=
  escaped_dollar_not_expanded.1 "BAR" [("BAR", "preset")] (fun _ => some "lookedup") (by decide)

/-- Parsing `K=$NAME` resolves the bare reference via `resolveVar`. -/
theorem parseLineL_dollar_ref {nd : List Char} (p : Env) (l : Lookup)
    (hne : ¬(nd = [])) (hname : ∀ c ∈ nd, isNameChar c = true) :
    parseLineL ('K' :: '=' :: '$' :: nd) p l
      = Except.ok ("K", resolveVar p l (String.mk nd)) := by
  have hsp : ∀ c ∈ '$' :: nd, isSpaceChar c = false := by
    intro c hc
    rcases List.mem_cons.mp hc with rfl | hm
    · decide
    · exact not_space_of_nameChar (hname c hm)
  have hhash : ∀ c ∈ '$' :: nd, ¬(c = '#') := by
    intro c hc
    rcases List.mem_cons.mp hc with rfl | hm
    · decide
    · exact ne_of_nameChar (hname c hm) (by decide)
  have hsplit : splitSep (stripExport (trimLeftL ('K' :: '=' :: '$' :: nd)))
      = some (['K'], '$' :: nd) := by
    rw [trimLeftL_cons _ (by decide), stripExport_cons_ne_e _ (by decide),
      show ('K' :: '=' :: '$' :: nd) = ['K'] ++ '=' :: ('$' :: nd) from rfl,
      splitSep_key_append (by decide)]
  rw [parseLineL_eq_of_split p l hsplit, trimL_eq_self hsp,
    parseValue_unquoted p l nd (by decide) (by decide),
    show stripComment ('$' :: nd) = stripCommentGo true ('$' :: nd) from rfl,
    stripCommentGo_eq_self hhash true, trimRightL_eq_self hsp]
  cases nd with
  | nil => exact absurd rfl hne
  | cons c cs =>
      have hc := hname c (by simp)
      have hbr : ¬(c = '{') := ne_of_nameChar hc (by decide)
      rw [show expandL p l ('$' :: c :: cs) = expandGo p l ExpSt.dollar (c :: cs) from rfl]
      rw [show expandGo p l ExpSt.dollar (c :: cs)
          = (expStep p l ExpSt.dollar c).1 ++ expandGo p l (expStep p l ExpSt.dollar c).2 cs
        from rfl]
      simp only [expStep, hbr, if_false, hc, if_true, if_neg hbr]
      rw [expandGo_name_run p l (fun x hx => hname x (by simp [hx])) [c]]
      rw [show ([c].reverse ++ cs) = c :: cs from rfl,
        show trimL ['K'] = ['K'] from by decide]
      rfl

/-- Parsing `K=${NAME}` resolves the braced reference via `resolveVar`. -/
theorem parseLineL_brace_ref {nd : List Char} (p : Env) (l : Lookup)
    (hname : ∀ c ∈ nd, isNameChar c = true) :
    parseLineL ('K' :: '=' :: '$' :: '{' :: (nd ++ ['}'])) p l
      = Except.ok ("K", resolveVar p l (String.mk nd)) := by
  have hsp : ∀ c ∈ '$' :: '{' :: (nd ++ ['}']), isSpaceChar c = false := by
    intro c hc
    rcases List.mem_cons.mp hc with rfl | hm
    · decide
    rcases List.mem_cons.mp hm with rfl | hm'
    · decide
    rcases List.mem_append.mp hm' with hm'' | hm''
    · exact not_space_of_nameChar (hname c hm'')
    · rcases List.mem_singleton.mp hm'' with rfl
      decide
  have hhash : ∀ c ∈ '$' :: '{' :: (nd ++ ['}']), ¬(c = '#') := by
    intro c hc
    rcases List.mem_cons.mp hc with rfl | hm
    · decide
    rcases List.mem_cons.mp hm with rfl | hm'
    · decide
    rcases List.mem_append.mp hm' with hm'' | hm''
    · exact ne_of_nameChar (hname c hm'') (by decide)
    · rcases List.mem_singleton.mp hm'' with rfl
      decide
  have hsplit : splitSep (stripExport (trimLeftL ('K' :: '=' :: '$' :: '{' :: (nd ++ ['}']))))
      = some (['K'], '$' :: '{' :: (nd ++ ['}'])) := by
    rw [trimLeftL_cons _ (by decide), stripExport_cons_ne_e _ (by decide),
      show ('K' :: '=' :: '$' :: '{' :: (nd ++ ['}']))
        = ['K'] ++ '=' :: ('$' :: '{' :: (nd ++ ['}'])) from rfl,
      splitSep_key_append (by decide)]
  rw [parseLineL_eq_of_split p l hsplit, trimL_eq_self hsp,
    parseValue_unquoted p l _ (by decide) (by decide),
    show stripComment ('$' :: '{' :: (nd ++ ['}'])) = stripCommentGo true ('$' :: '{' :: (nd ++ ['}'])) from rfl,
    stripCommentGo_eq_self hhash true, trimRightL_eq_self hsp]
  rw [show expandL p l ('$' :: '{' :: (nd ++ ['}'])) = expandGo p l (ExpSt.brace []) (nd ++ ['}']) from rfl,
    show (nd ++ ['}']) = nd ++ '}' :: [] from rfl,
    expandGo_brace_run p l (fun c hc => ne_of_nameChar (hname c hc) (by decide)) [] []]
  rw [show expandGo p l ExpSt.normal [] = [] from rfl,
    show trimL ['K'] = ['K'] from by decide]
  simp

/-- **C1.** For every reference `$NAME` or `${NAME}` expanded during a
parse, resolution follows this precedence: the value from the Preset
Mapping when `NAME` is a key there; otherwise the value the Lookup Function
finds; otherwise the empty string. -/
theorem substitution_precedence (name : String) (p : Env) (l : Lookup)
    (hne : ¬(name.data = [])) (hname : name.data.all isNameChar = true) :
    (∀ v, lookupEnv p name = some v →
      parseLineWithLookup ("K=$" ++ name) p l = Except.ok ("K", v) ∧
      parseLineWithLookup ("K=$\x7b" ++ name ++ "\x7d") p l = Except.ok ("K", v)) ∧
    (lookupEnv p name = none → ∀ v, l name = some v →
      parseLineWithLookup ("K=$" ++ name) p l = Except.ok ("K", v) ∧
      parseLineWithLookup ("K=$\x7b" ++ name ++ "\x7d") p l = Except.ok ("K", v)) ∧
    (lookupEnv p name = none → l name = none →
      parseLineWithLookup ("K=$" ++ name) p l = Except.ok ("K", "") ∧
      parseLineWithLookup ("K=$\x7b" ++ name ++ "\x7d") p l = Except.ok ("K", "")) := by
  obtain ⟨nd⟩ := name
  simp only [List.all_eq_true] at hname
  have h1 : parseLineWithLookup ("K=$" ++ String.mk nd) p l
      = Except.ok ("K", resolveVar p l (String.mk nd)) := by
    unfold parseLineWithLookup
    rw [show ("K=$" ++ String.mk nd).data = 'K' :: '=' :: '$' :: nd by
      rw [String.data_append]; rfl]
    exact parseLineL_dollar_ref p l hne hname
  have h2 : parseLineWithLookup ("K=$\x7b" ++ String.mk nd ++ "\x7d") p l
      = Except.ok ("K", resolveVar p l (String.mk nd)) := by
    unfold parseLineWithLookup
    rw [show ("K=$\x7b" ++ String.mk nd ++ "\x7d").data = 'K' :: '=' :: '$' :: '{' :: (nd ++ ['}']) by
      rw [String.data_append, String.data_append]; rfl]
    exact parseLineL_brace_ref p l hname
  refine ⟨?_, ?_, ?_⟩
  · intro v hv
    have hres : resolveVar p l (String.mk nd) = v := by
      unfold resolveVar
      rw [hv]
    rw [h1, h2, hres]
    exact ⟨rfl, rfl⟩
  · intro hp v hv
    have hres : resolveVar p l (String.mk nd) = v := by
      unfold resolveVar
      rw [hp, hv]
    rw [h1, h2, hres]
    exact ⟨rfl, rfl⟩
  · intro hp hl
    have hres : resolveVar p l (String.mk nd) = "" := by
      unfold resolveVar
      rw [hp, hl]
    rw [h1, h2, hres]
    exact ⟨rfl, rfl⟩

/-- Witness for C1: the three precedence cases at concrete inputs — the
preset wins over a lookup that would also find the name; the lookup is used
when the name is not a preset; the empty string is used when neither
defines the name. -/
theorem substitution_precedence_witness :
    parseLineWithLookup ("K=$" ++ "ME") [("ME", "preset")] (fun _ => some "lookedup")
      = Except.ok ("K", "preset") ∧
    parseLineWithLookup ("K=$" ++ "ME") [] (fun s => if s = "ME" then some "YES" else none)
      = Except.ok ("K", "YES") ∧
    parseLineWithLookup ("K=$\x7b" ++ "ME" ++ "\x7d") [] (fun _ => none)
      = Except.ok ("K", "") :=
  ⟨((substitution_precedence "ME" [("ME", "preset")] (fun _ => some "lookedup")
      (by decide) (by decide)).1 "preset" (by decide)).1,
    ((substitution_precedence "ME" [] (fun s => if s = "ME" then some "YES" else none)
      (by decide) (by decide)).2.1 (by decide) "YES" (by decide)).1,
    ((substitution_precedence "ME" [] (fun _ => none)
      (by decide) (by decide)).2.2 (by decide) (by decide)).2⟩

/-! ## Environment loader lemmas -/

/-- `Load` never touches a key the store already defines. -/
theorem applyLoad_preserves (m : Env) : ∀ (store : Env) (k v : String),
    lookupEnv store k = some v → lookupEnv (applyLoad store m) k = some v := by
  induction m with
  | nil => intro store k v h; exact h
  | cons e rest ih =>
      intro store k v h
      obtain ⟨k', v'⟩ := e
      unfold applyLoad
      by_cases hdef : (lookupEnv store k').isSome
      · rw [if_pos hdef]
        exact ih store k v h
      · rw [if_neg hdef]
        by_cases hk : k' = k
        · subst hk
          rw [h] at hdef
          exact absurd rfl hdef
        · exact ih _ k v (by rw [lookupEnv_setEnv_other store k' v' k hk, h])

/-- `Load` of a mapping with distinct keys sets every key the store does
not define to the mapping's value. -/
theorem applyLoad_new (m : Env) : ∀ (store : Env) (k : String),
    (m.map (fun e => e.1)).Nodup → lookupEnv store k = none →
    lookupEnv (applyLoad store m) k = lookupEnv m k := by
  induction m with
  | nil => intro store k _ h; exact h
  | cons e rest ih =>
      intro store k hnd h
      obtain ⟨k', v'⟩ := e
      simp only [List.map_cons, List.nodup_cons] at hnd
      unfold applyLoad
      by_cases hk : k' = k
      · subst hk
        rw [if_neg (by rw [h]; exact Bool.false_ne_true)]
        rw [show lookupEnv ((k', v') :: rest) k' = some v' from by simp [lookupEnv]]
        exact applyLoad_preserves rest _ k' v' (lookupEnv_setEnv_self store k' v')
      · rw [show lookupEnv ((k', v') :: rest) k = lookupEnv rest k from by simp [lookupEnv, hk]]
        by_cases hdef : (lookupEnv store k').isSome
        · rw [if_pos hdef]
          exact ih store k hnd.2 h
        · rw [if_neg hdef]
          exact ih _ k hnd.2 (by rw [lookupEnv_setEnv_other store k' v' k hk, h])

/-- `Overload` leaves keys absent from the mapping at their store value. -/
theorem applyOverload_absent (m : Env) : ∀ (store : Env) (k : String),
    lookupEnv m k = none →
    lookupEnv (applyOverload store m) k = lookupEnv store k := by
  induction m with
  | nil => intro store k _; rfl
  | cons e rest ih =>
      intro store k h
      obtain ⟨k', v'⟩ := e
      have hk : ¬(k' = k) := by
        intro hk
        rw [show lookupEnv ((k', v') :: rest) k = some v' from by simp [lookupEnv, hk]] at h
        cases h
      unfold applyOverload
      rw [ih _ k (by simpa [lookupEnv, hk] using h), lookupEnv_setEnv_other store k' v' k hk]

/-- `Overload` sets every key of a mapping with distinct keys to the
mapping's value, overwriting the store. -/
theorem applyOverload_sets (m : Env) : ∀ (store : Env) (k : String),
    (m.map (fun e => e.1)).Nodup → (lookupEnv m k).isSome →
    lookupEnv (applyOverload store m) k = lookupEnv m k := by
  induction m with
  | nil => intro store k _ h; cases h
  | cons e rest ih =>
      intro store k hnd h
      obtain ⟨k', v'⟩ := e
      simp only [List.map_cons, List.nodup_cons] at hnd
      unfold applyOverload
      by_cases hk : k' = k
      · subst hk
        have habs : lookupEnv rest k' = none := by
          cases hr : lookupEnv rest k' with
          | none => rfl
          | some w =>
              exfalso
              apply hnd.1
              clear ih h hnd
              induction rest with
              | nil => cases hr
              | cons e2 r2 ih2 =>
                  obtain ⟨k2, v2⟩ := e2
                  by_cases h2 : k2 = k'
                  · subst h2; simp
                  · simp only [lookupEnv, if_neg h2] at hr
                    simp [ih2 hr]
        rw [applyOverload_absent rest _ k' habs, lookupEnv_setEnv_self store k' v']
        simp [lookupEnv]
      · rw [show lookupEnv ((k', v') :: rest) k = lookupEnv rest k from by simp [lookupEnv, hk]]
        rw [show lookupEnv ((k', v') :: rest) k = lookupEnv rest k from by simp [lookupEnv, hk]] at h
        exact ih _ k hnd.2 h

/-- **C9.** `Load` sets a key only when the store does not already define
it, leaving every already-defined entry unchanged; `Overload` always sets
the value.  With the store presetting `OPTION_A=do_not_override`, `Load` of
a document defining `OPTION_A=1` leaves it unchanged while `Overload` sets
it to `1`. -/
theorem load_preserves_overload_overwrites :
    (∀ (store m : Env) (k v : String), lookupEnv store k = some v →
      lookupEnv (applyLoad store m) k = some v) ∧
    (∀ (store m : Env) (k : String), (m.map (fun e => e.1)).Nodup →
      lookupEnv store k = none →
      lookupEnv (applyLoad store m) k = lookupEnv m k) ∧
    (∀ (store m : Env) (k : String), (m.map (fun e => e.1)).Nodup →
      (lookupEnv m k).isSome →
      lookupEnv (applyOverload store m) k = lookupEnv m k) ∧
    (∀ (store m : Env) (k : String), lookupEnv m k = none →
      lookupEnv (applyOverload store m) k = lookupEnv store k) ∧
    LoadDoc "OPTION_A=1" [("OPTION_A", "do_not_override")]
      = Except.ok [("OPTION_A", "do_not_override")] ∧
    OverloadDoc "OPTION_A=1" [("OPTION_A", "do_not_override")]
      = Except.ok [("OPTION_A", "1")] :=
  ⟨fun store m k v h => applyLoad_preserves m store k v h,
    fun store m k hnd h => applyLoad_new m store k hnd h,
    fun store m k hnd h => applyOverload_sets m store k hnd h,
    fun store m k h => applyOverload_absent m store k h,
    by decide, by decide⟩

/-- Witness for C9: the frame conjuncts applied at a concrete store and
mapping. -/
theorem load_preserves_overload_overwrites_witness :
    lookupEnv (applyLoad [("A", "keep")] [("A", "1"), ("B", "2")]) "A" = some "keep" ∧
    lookupEnv (applyLoad [("A", "keep")] [("A", "1"), ("B", "2")]) "B"
      = lookupEnv [("A", "1"), ("B", "2")] "B" ∧
    lookupEnv (applyOverload [("A", "keep")] [("A", "1")]) "A" = lookupEnv [("A", "1")] "A" ∧
    lookupEnv (applyOverload [("A", "keep")] [("B", "2")]) "A" = lookupEnv [("A", "keep")] "A" :=
  ⟨load_preserves_overload_overwrites.1 [("A", "keep")] [("A", "1"), ("B", "2")] "A" "keep" (by decide),
    load_preserves_overload_overwrites.2.1 [("A", "keep")] [("A", "1"), ("B", "2")] "B"
      (by decide) (by decide),
    load_preserves_overload_overwrites.2.2.1 [("A", "keep")] [("A", "1")] "A" (by decide) (by decide),
    load_preserves_overload_overwrites.2.2.2.1 [("A", "keep")] [("B", "2")] "A" (by decide)⟩

/-! ## Serializer lemmas -/

theorem leChars_total (a : List Char) : ∀ b : List Char,
    leChars a b = true ∨ leChars b a = true := by
  induction a with
  | nil => intro b; left; rfl
  | cons x xs ih =>
      intro b
      cases b with
      | nil => right; rfl
      | cons y ys =>
          by_cases hxy : x = y
          · subst hxy
            rcases ih ys with h | h
            · left; simpa [leChars] using h
            · right; simpa [leChars] using h
          · rcases lt_trichotomy x y with h1 | h2 | h3
            · left
              unfold leChars
              simp [hxy, h1]
            · exact absurd h2 hxy
            · right
              unfold leChars
              rw [if_neg (fun hh => hxy hh.symm)]
              exact decide_eq_true h3

theorem strLe_total (a b : String) : strLe a b = true ∨ strLe b a = true :=
  leChars_total a.data b.data

theorem leChars_trans (a : List Char) : ∀ b c : List Char,
    leChars a b = true → leChars b c = true → leChars a c = true := by
  induction a with
  | nil => intro b c _ _; rfl
  | cons x xs ih =>
      intro b c h1 h2
      cases b with
      | nil => simp [leChars] at h1
      | cons y ys =>
          cases c with
          | nil => simp [leChars] at h2
          | cons z zs =>
              by_cases hxy : x = y <;> by_cases hyz : y = z
              · subst hxy; subst hyz
                unfold leChars at h1 h2 ⊢
                simp only [if_pos rfl] at h1 h2 ⊢
                exact ih ys zs h1 h2
              · subst hxy
                unfold leChars at h2 ⊢
                rw [if_neg hyz] at h2
                rw [if_neg hyz]
                exact h2
              · subst hyz
                unfold leChars at h1 ⊢
                rw [if_neg hxy] at h1
                rw [if_neg hxy]
                exact h1
              · unfold leChars at h1 h2 ⊢
                rw [if_neg hxy] at h1
                rw [if_neg hyz] at h2
                have hlt : x < z := lt_trans (of_decide_eq_true h1) (of_decide_eq_true h2)
                rw [if_neg (ne_of_lt hlt)]
                exact decide_eq_true hlt

theorem strLe_trans {a b c : String} (h1 : strLe a b = true) (h2 : strLe b c = true) :
    strLe a c = true :=
  leChars_trans a.data b.data c.data h1 h2

theorem insertStr_perm (k : String) (l : List String) :
    (insertStr k l).Perm (k :: l) := by
  induction l with
  | nil => exact List.Perm.refl _
  | cons x rest ih =>
      unfold insertStr
      by_cases h : strLe k x
      · rw [if_pos h]
      · rw [if_neg h]
        exact (ih.cons x).trans (List.Perm.swap k x rest)

theorem sortStr_perm (l : List String) : (sortStr l).Perm l := by
  induction l with
  | nil => exact List.Perm.refl _
  | cons x rest ih =>
      unfold sortStr
      exact (insertStr_perm x (sortStr rest)).trans (ih.cons x)

theorem insertStr_sorted (k : String) {l : List String}
    (h : List.Sorted (fun a b => strLe a b = true) l) :
    List.Sorted (fun a b => strLe a b = true) (insertStr k l) := by
  induction l with
  | nil => simp [insertStr]
  | cons x rest ih =>
      unfold insertStr
      rw [List.sorted_cons] at h
      by_cases hk : strLe k x
      · rw [if_pos hk]
        rw [List.sorted_cons]
        refine ⟨?_, List.sorted_cons.mpr h⟩
        intro b hb
        rcases List.mem_cons.mp hb with rfl | hb'
        · exact hk
        · exact strLe_trans hk (h.1 b hb')
      · rw [if_neg hk]
        rw [List.sorted_cons]
        refine ⟨?_, ih h.2⟩
        intro b hb
        have hxk : strLe x k = true := (strLe_total k x).resolve_left hk
        rcases List.mem_cons.mp ((insertStr_perm k rest).mem_iff.mp hb) with rfl | hb'
        · exact hxk
        · exact h.1 b hb'

theorem sortStr_sorted (l : List String) :
    List.Sorted (fun a b => strLe a b = true) (sortStr l) := by
  induction l with
  | nil => simp [sortStr]
  | cons x rest ih =>
      unfold sortStr
      exact insertStr_sorted x ih

/-- **C3.** `Marshal` emits one `KEY=value` line per key with the keys in
lexicographically sorted order; a value that parses entirely as an integer
literal is emitted unquoted, every other value is wrapped in double quotes;
inside a quoted value, double quotes, backslashes, newlines, carriage
returns and `!` are backslash-escaped (so is `$`, which the spec's
round-trip law adds to its open escape set), while single quotes and every
remaining character are left unescaped. -/
theorem marshal_sorted_lines_quoting_escaping (m : Env) :
    (∃ ks : List String,
      ks.Perm (m.map (fun e => e.1)) ∧
      List.Sorted (fun a b => strLe a b = true) ks ∧
      Marshal m = String.mk (joinLines (ks.map
        (fun k => (renderEntry k ((lookupEnv m k).getD "")).data)))) ∧
    (∀ k v, isIntLiteral v = true → renderEntry k v = k ++ "=" ++ v) ∧
    (∀ k v, isIntLiteral v = false →
      renderEntry k v = k ++ "=" ++ "\"" ++ String.mk (escapeDQ v.data) ++ "\"") ∧
    (∀ s, escapeDQ ('"' :: s) = '\\' :: '"' :: escapeDQ s) ∧
    (∀ s, escapeDQ ('\\' :: s) = '\\' :: '\\' :: escapeDQ s) ∧
    (∀ s, escapeDQ ('\n' :: s) = '\\' :: 'n' :: escapeDQ s) ∧
    (∀ s, escapeDQ ('\r' :: s) = '\\' :: 'r' :: escapeDQ s) ∧
    (∀ s, escapeDQ ('!' :: s) = '\\' :: '!' :: escapeDQ s) ∧
    (∀ s, escapeDQ ('$' :: s) = '\\' :: '$' :: escapeDQ s) ∧
    (∀ (c : Char) (s : List Char), ¬(c = '"') → ¬(c = '\\') → ¬(c = '\n') →
      ¬(c = '\r') → ¬(c = '!') → ¬(c = '$') → escapeDQ (c :: s) = c :: escapeDQ s) ∧
    (∀ s, escapeDQ ('\'' :: s) = '\'' :: escapeDQ s) := by
  refine ⟨⟨sortStr (m.map (fun e => e.1)), sortStr_perm _, sortStr_sorted _,
      by unfold Marshal marshalLines; rfl⟩,
    ?_, ?_, fun s => rfl, fun s => rfl, fun s => rfl, fun s => rfl, fun s => rfl,
    fun s => rfl, ?_, fun s => rfl⟩
  · intro k v h
    unfold renderEntry
    rw [if_pos h]
  · intro k v h
    unfold renderEntry
    rw [if_neg (by rw [h]; exact Bool.false_ne_true)]
  · intro c s h1 h2 h3 h4 h5 h6
    conv_lhs => unfold escapeDQ
    simp [h1, h2, h3, h4, h5, h6]

/-- Witness for C3: the conditional conjuncts at concrete inputs — `10` is
emitted unquoted, `a!` is quoted with the `!` escaped, and an ordinary
character passes through the escaper unchanged. -/
theorem marshal_sorted_lines_quoting_escaping_witness :
    renderEntry "key" "10" = "key" ++ "=" ++ "10" ∧
    renderEntry "key" "a!" = "key" ++ "=" ++ "\"" ++ String.mk (escapeDQ "a!".data) ++ "\"" ∧
    escapeDQ ('x' :: ['y']) = 'x' :: escapeDQ ['y'] :=
  ⟨(marshal_sorted_lines_quoting_escaping []).2.1 "key" "10" (by decide),
    (marshal_sorted_lines_quoting_escaping []).2.2.1 "key" "a!" (by decide),
    (marshal_sorted_lines_quoting_escaping []).2.2.2.2.2.2.2.2.2.1 'x' ['y']
      (by decide) (by decide) (by decide) (by decide) (by decide) (by decide)⟩

/-! ## Round-trip lemmas: characters and escaping -/

/-- Characters in different decidable character classes are distinct. -/
theorem bool_pred_ne {f : Char → Bool} {c x : Char} (h : f c = true)
    (hx : f x = false) : ¬(c = x) := by
  rintro rfl
  rw [h] at hx
  cases hx

/-- A character class that excludes the three whitespace characters yields
non-whitespace characters. -/
theorem isSpace_false_of_pred {f : Char → Bool} {c : Char} (h : f c = true)
    (h1 : f ' ' = false) (h2 : f '\t' = false) (h3 : f '\r' = false) :
    isSpaceChar c = false := by
  cases hs : isSpaceChar c with
  | false => rfl
  | true =>
      exfalso
      unfold isSpaceChar at hs
      rcases Bool.or_eq_true_iff.mp hs with hor | h3'
      · rcases Bool.or_eq_true_iff.mp hor with h1' | h2'
        · rw [decide_eq_true_eq.mp h1'] at h
          rw [h] at h1
          cases h1
        · rw [decide_eq_true_eq.mp h2'] at h
          rw [h] at h2
          cases h2
      · rw [decide_eq_true_eq.mp h3'] at h
        rw [h] at h3
        cases h3

/-- An integer literal is nonempty and made of digits and signs. -/
theorem intLiteral_chars {v : String} (h : isIntLiteral v = true) :
    ¬(v.data = []) ∧ ∀ c ∈ v.data, isIntChar c = true := by
  unfold isIntLiteral at h
  cases hd : v.data with
  | nil => rw [hd] at h; cases h
  | cons c rest =>
      rw [hd] at h
      replace h : (if c = '-' || c = '+' then !rest.isEmpty && rest.all (fun d => d.isDigit)
          else (c :: rest).all (fun d => d.isDigit)) = true := h
      refine ⟨by simp, ?_⟩
      by_cases hs : (c = '-' || c = '+') = true
      · rw [if_pos hs] at h
        have hall := (Bool.and_eq_true_iff.mp h).2
        simp only [List.all_eq_true] at hall
        intro x hx
        rcases List.mem_cons.mp hx with rfl | hm
        · unfold isIntChar
          rcases Bool.or_eq_true_iff.mp hs with h1 | h2
          · simp [decide_eq_true_eq.mp h1]
          · simp [decide_eq_true_eq.mp h2]
        · unfold isIntChar
          simp [hall x hm]
      · rw [if_neg hs] at h
        simp only [List.all_eq_true] at h
        intro x hx
        unfold isIntChar
        simp [h x hx]

/-- The serializer's escaping never leaves an unescaped double quote or a
dangling backslash: the double-quote scanner runs through it. -/
theorem qSafe_escapeDQ (v : List Char) : qSafe '"' (escapeDQ v) = true := by
  induction v with
  | nil => rfl
  | cons c s ih =>
      unfold escapeDQ
      by_cases h1 : c = '\n'
      · rw [if_pos h1]
        simpa [qSafe] using ih
      · rw [if_neg h1]
        by_cases h2 : c = '\r'
        · rw [if_pos h2]
          simpa [qSafe] using ih
        · rw [if_neg h2]
          by_cases h3 : (c = '"' || c = '\\' || c = '!' || c = '$') = true
          · rw [if_pos h3]
            simpa [qSafe] using ih
          · rw [if_neg h3]
            simp only [Bool.or_eq_true_iff, decide_eq_true_eq] at h3
            push_neg at h3
            unfold qSafe
            rw [if_neg h3.1.1.2]
            simp [h3.1.1.1, ih]

/-- The substitution pass applied to the unescaped serializer output
recovers the original value exactly, for every value: ordinary characters
pass through; an escaped `$` survives unescaping as `\$` and is turned back
into a literal `$`; a literal backslash leaves the scanner in its
pending-escape state, which re-emits it whatever comes next. -/
theorem expand_unescape_escape (p : Env) (l : Lookup) (v : List Char) :
    expandGo p l ExpSt.normal (unescapeDQ (escapeDQ v)) = v ∧
    expandGo p l ExpSt.esc (unescapeDQ (escapeDQ v)) = '\\' :: v := by
  induction v with
  | nil => exact ⟨rfl, rfl⟩
  | cons c s ih =>
      unfold escapeDQ
      by_cases h1 : c = '\n'
      · rw [if_pos h1, h1]
        rw [show unescapeDQ ('\\' :: 'n' :: escapeDQ s) = '\n' :: unescapeDQ (escapeDQ s)
          from rfl]
        constructor
        · rw [show expandGo p l ExpSt.normal ('\n' :: unescapeDQ (escapeDQ s))
              = '\n' :: expandGo p l ExpSt.normal (unescapeDQ (escapeDQ s)) from rfl, ih.1]
        · rw [show expandGo p l ExpSt.esc ('\n' :: unescapeDQ (escapeDQ s))
              = '\\' :: '\n' :: expandGo p l ExpSt.normal (unescapeDQ (escapeDQ s)) from rfl,
            ih.1]
      · rw [if_neg h1]
        by_cases h2 : c = '\r'
        · rw [if_pos h2, h2]
          rw [show unescapeDQ ('\\' :: 'r' :: escapeDQ s) = '\r' :: unescapeDQ (escapeDQ s)
            from rfl]
          constructor
          · rw [show expandGo p l ExpSt.normal ('\r' :: unescapeDQ (escapeDQ s))
                = '\r' :: expandGo p l ExpSt.normal (unescapeDQ (escapeDQ s)) from rfl, ih.1]
          · rw [show expandGo p l ExpSt.esc ('\r' :: unescapeDQ (escapeDQ s))
                = '\\' :: '\r' :: expandGo p l ExpSt.normal (unescapeDQ (escapeDQ s)) from rfl,
              ih.1]
        · rw [if_neg h2]
          by_cases h3 : (c = '"' || c = '\\' || c = '!' || c = '$') = true
          · rw [if_pos h3]
            by_cases hb : c = '\\'
            · subst hb
              rw [show unescapeDQ ('\\' :: '\\' :: escapeDQ s) = '\\' :: unescapeDQ (escapeDQ s)
                from rfl]
              constructor
              · rw [show expandGo p l ExpSt.normal ('\\' :: unescapeDQ (escapeDQ s))
                    = expandGo p l ExpSt.esc (unescapeDQ (escapeDQ s)) from rfl, ih.2]
              · rw [show expandGo p l ExpSt.esc ('\\' :: unescapeDQ (escapeDQ s))
                    = '\\' :: expandGo p l ExpSt.esc (unescapeDQ (escapeDQ s)) from rfl, ih.2]
            · by_cases hd : c = '$'
              · subst hd
                rw [show unescapeDQ ('\\' :: '$' :: escapeDQ s)
                    = '\\' :: '$' :: unescapeDQ (escapeDQ s) from rfl]
                constructor
                · rw [show expandGo p l ExpSt.normal ('\\' :: '$' :: unescapeDQ (escapeDQ s))
                       = '$' :: expandGo p l ExpSt.normal (unescapeDQ (escapeDQ s)) from rfl,
                    ih.1]
                · rw [show expandGo p l ExpSt.esc ('\\' :: '$' :: unescapeDQ (escapeDQ s))
                       = '\\' :: '$' :: expandGo p l ExpSt.normal (unescapeDQ (escapeDQ s))
                     from rfl, ih.1]
              · -- c is '"' or '!': the unescaper drops the backslash, the
                -- scanner passes the character through
                have hcn : ¬(c = 'n') := by
                  rintro rfl
                  simp at h3
                have hcr : ¬(c = 'r') := by
                  rintro rfl
                  simp at h3
                have hune : unescapeDQ ('\\' :: c :: escapeDQ s)
                    = c :: unescapeDQ (escapeDQ s) := by
                  conv_lhs => unfold unescapeDQ
                  simp [hcn, hcr, hd]
                rw [hune]
                have hstep : stepNormal c = ([c], ExpSt.normal) := by
                  unfold stepNormal
                  rw [if_neg hb, if_neg hd]
                constructor
                · rw [show expandGo p l ExpSt.normal (c :: unescapeDQ (escapeDQ s))
                      = (stepNormal c).1 ++ expandGo p l (stepNormal c).2 (unescapeDQ (escapeDQ s))
                    from rfl, hstep, ih.1]
                  rfl
                · rw [show expandGo p l ExpSt.esc (c :: unescapeDQ (escapeDQ s))
                      = (expStep p l ExpSt.esc c).1
                        ++ expandGo p l (expStep p l ExpSt.esc c).2 (unescapeDQ (escapeDQ s))
                    from rfl]
                  unfold expStep
                  rw [if_neg hd, hstep]
                  rw [ih.1]
                  rfl
          · rw [if_neg h3]
            simp only [Bool.or_eq_true_iff, decide_eq_true_eq] at h3
            push_neg at h3
            have hb : ¬(c = '\\') := h3.1.1.2
            have hd : ¬(c = '$') := h3.2
            have hune : unescapeDQ (c :: escapeDQ s) = c :: unescapeDQ (escapeDQ s) := by
              conv_lhs => unfold unescapeDQ
              simp [hb]
            rw [hune]
            have hstep : stepNormal c = ([c], ExpSt.normal) := by
              unfold stepNormal
              rw [if_neg hb, if_neg hd]
            constructor
            · rw [show expandGo p l ExpSt.normal (c :: unescapeDQ (escapeDQ s))
                  = (stepNormal c).1 ++ expandGo p l (stepNormal c).2 (unescapeDQ (escapeDQ s))
                from rfl, hstep, ih.1]
              rfl
            · rw [show expandGo p l ExpSt.esc (c :: unescapeDQ (escapeDQ s))
                  = (expStep p l ExpSt.esc c).1
                    ++ expandGo p l (expStep p l ExpSt.esc c).2 (unescapeDQ (escapeDQ s))
                from rfl]
              unfold expStep
              rw [if_neg hd, hstep]
              rw [ih.1]
              rfl

/-- A left-trim fixpoint stays a fixpoint when the list is extended on the
right past a non-whitespace character. -/
theorem trimLeftL_append_fix {kd : List Char} (h : trimLeftL kd = kd) {c : Char}
    (hc : isSpaceChar c = false) (w : List Char) :
    trimLeftL (kd ++ c :: w) = kd ++ c :: w := by
  cases kd with
  | nil => exact trimLeftL_cons _ hc
  | cons a l =>
      have ha : isSpaceChar a = false := by
        cases hs : isSpaceChar a with
        | false => rfl
        | true =>
            exfalso
            have : trimLeftL (a :: l) = trimLeftL l := by
              simp [trimLeftL, List.dropWhile_cons, hs]
            rw [h] at this
            have hlen : (a :: l).length ≤ (trimLeftL l).length := by rw [← this]
            have hle : (trimLeftL l).length ≤ l.length := by
              unfold trimLeftL
              exact (List.dropWhile_sublist _).length_le
            simp at hlen
            omega
      rw [List.cons_append]
      exact trimLeftL_cons _ ha

/-- A list fixed by the full trim is fixed by the left trim. -/
theorem trimLeftL_fix_of_trimL_fix {kd : List Char} (h : trimL kd = kd) :
    trimLeftL kd = kd := by
  have hsuf : trimLeftL kd <:+ kd := List.dropWhile_suffix _
  have h1 : (trimRightL (trimLeftL kd)).length ≤ (trimLeftL kd).length := by
    unfold trimRightL trimLeftL
    calc ((trimLeftL (kd.dropWhile fun c => isSpaceChar c).reverse).reverse).length
        = (trimLeftL (kd.dropWhile fun c => isSpaceChar c).reverse).length := by
          rw [List.length_reverse]
      _ ≤ ((kd.dropWhile fun c => isSpaceChar c).reverse).length :=
          (List.dropWhile_sublist _).length_le
      _ = (kd.dropWhile fun c => isSpaceChar c).length := List.length_reverse _
  have h2 : kd.length ≤ (trimLeftL kd).length := by
    conv_lhs => rw [← h]
    exact h1
  exact hsuf.eq_of_length (Nat.le_antisymm hsuf.sublist.length_le h2)

/-- A left-trim fixpoint starting with a character has that character
non-whitespace. -/
theorem head_nonspace_of_trimLeftL_fix {c : Char} {l : List Char}
    (h : trimLeftL (c :: l) = c :: l) : isSpaceChar c = false := by
  cases hs : isSpaceChar c with
  | false => rfl
  | true =>
      exfalso
      have : trimLeftL (c :: l) = trimLeftL l := by
        simp [trimLeftL, List.dropWhile_cons, hs]
      rw [h] at this
      have hle : (trimLeftL l).length ≤ l.length := by
        unfold trimLeftL
        exact (List.dropWhile_sublist _).length_le
      have hlen : (c :: l).length ≤ (trimLeftL l).length := by rw [← this]
      simp at hlen
      omega

/-- A serialized `key=` line never has its key mistaken for an `export`
prefix: either the first six characters differ from `export`, or (the key
having no `export`-plus-whitespace prefix) the character after them is the
key's own seventh character or the separator, never whitespace. -/
theorem stripExport_trimmedKey {kd : List Char} (hne : noExportPrefix kd = true)
    (w : List Char) : stripExport (kd ++ '=' :: w) = kd ++ '=' :: w := by
  by_cases ht : (kd ++ '=' :: w).take 6 = ['e', 'x', 'p', 'o', 'r', 't']
  · have hlen : 6 ≤ kd.length := by
      by_contra hlt
      push_neg at hlt
      have hmem : '=' ∈ (kd ++ '=' :: w).take 6 := by
        rw [List.take_append_eq_append_take, List.take_of_length_le (le_of_lt hlt)]
        refine List.mem_append.mpr (Or.inr ?_)
        cases hj : 6 - kd.length with
        | zero => omega
        | succ j =>
            rw [List.take_succ_cons]
            exact List.mem_cons_self '=' _
      rw [ht] at hmem
      exact absurd hmem (by decide)
    have hkt : kd.take 6 = ['e', 'x', 'p', 'o', 'r', 't'] := by
      rw [List.take_append_eq_append_take, show 6 - kd.length = 0 from by omega] at ht
      simpa using ht
    have hdrop : (kd ++ '=' :: w).drop 6 = kd.drop 6 ++ '=' :: w := by
      rw [List.drop_append_eq_append_drop, show 6 - kd.length = 0 from by omega]
      rfl
    cases hd6 : kd.drop 6 with
    | nil =>
        refine stripExport_of_nonspace (c := '=') ?_ (by decide)
        rw [hdrop, hd6]
        rfl
    | cons c2 r2 =>
        have hc2 : isSpaceChar c2 = false := by
          unfold noExportPrefix at hne
          rw [hkt, hd6] at hne
          simpa using hne
        refine stripExport_of_nonspace (c := c2) ?_ hc2
        rw [hdrop, hd6]
        rfl
  · exact stripExport_of_take_ne ht

/-- The separator scan passes over a `keySepSafe` key (escape pairs
included) and splits at the `=` right after it. -/
theorem splitSep_keySafe : ∀ {kd : List Char}, keySepSafe kd = true →
    ∀ (w : List Char), splitSep (kd ++ '=' :: w) = some (kd, w)
  | [] => by
      intro _ w
      unfold splitSep
      simp
  | c :: cs => by
      intro h w
      by_cases hb : c = '\\'
      · subst hb
        unfold keySepSafe at h
        cases cs with
        | nil => simp at h
        | cons c2 cs2 =>
            have h' : ¬(c2 = '\n') ∧ keySepSafe cs2 = true := by
              rw [if_pos rfl] at h
              simp only [Bool.and_eq_true_iff, Bool.not_eq_eq_eq_not, Bool.not_true,
                decide_eq_false_iff_not] at h
              exact h
            have ih := splitSep_keySafe h'.2 w
            simp only [List.cons_append]
            unfold splitSep
            simp [ih]
      · have h' : ¬(c = '=') ∧ ¬(c = ':') ∧ keySepSafe cs = true := by
          unfold keySepSafe at h
          rw [if_neg hb] at h
          simp only [Bool.and_eq_true_iff, Bool.not_eq_eq_eq_not, Bool.not_true,
            decide_eq_false_iff_not] at h
          exact ⟨h.1.1.1, h.1.1.2, h.2⟩
        have ih := splitSep_keySafe h'.2.2 w
        simp only [List.cons_append]
        unfold splitSep
        simp [hb, h'.1, h'.2.1, ih]

/-- The parser inverts the serializer on a single rendered line, for any
presets, lookup and value: a `plainKey` entry comes back exactly. -/
theorem renderEntry_parses {k : String} (hk : plainKey k = true) (v : String)
    (p : Env) (l : Lookup) :
    parseLineL (renderEntry k v).data p l = Except.ok (k, v) := by
  unfold plainKey at hk
  simp only [Bool.and_eq_true_iff, decide_eq_true_eq] at hk
  have hktrim : trimL k.data = k.data := hk.1.1.1
  have hksafe : keySepSafe k.data = true := hk.1.1.2
  have hkexp : noExportPrefix k.data = true := hk.1.2
  have hkltrim : trimLeftL k.data = k.data := trimLeftL_fix_of_trimL_fix hktrim
  by_cases hint : isIntLiteral v = true
  · -- unquoted integer-literal line
    obtain ⟨hvne, hvint⟩ := intLiteral_chars hint
    have hvnospace : ∀ c ∈ v.data, isSpaceChar c = false :=
      fun c hc => isSpace_false_of_pred (hvint c hc) (by decide) (by decide) (by decide)
    have hvnd : ∀ c ∈ v.data, ¬(c = '$') :=
      fun c hc => bool_pred_ne (hvint c hc) (by decide)
    have hdata : (renderEntry k v).data = k.data ++ '=' :: v.data := by
      unfold renderEntry
      rw [if_pos hint, String.data_append, String.data_append, List.append_assoc]
      rfl
    rw [hdata]
    have htriml : trimLeftL (k.data ++ '=' :: v.data) = k.data ++ '=' :: v.data :=
      trimLeftL_append_fix hkltrim (by decide) _
    have hsplit : splitSep (stripExport (trimLeftL (k.data ++ '=' :: v.data)))
        = some (k.data, v.data) := by
      rw [htriml, stripExport_trimmedKey hkexp, splitSep_keySafe hksafe]
    rw [parseLineL_eq_of_split p l hsplit, hktrim, trimL_eq_self hvnospace]
    obtain ⟨c1, vtl, hvd⟩ : ∃ c1 vtl, v.data = c1 :: vtl := by
      cases hvd : v.data with
      | nil => exact absurd hvd hvne
      | cons a b => exact ⟨a, b, rfl⟩
    have hc1 : c1 ∈ v.data := by rw [hvd]; exact List.mem_cons_self c1 vtl
    rw [hvd, parseValue_unquoted p l vtl
      (bool_pred_ne (hvint c1 hc1) (by decide)) (bool_pred_ne (hvint c1 hc1) (by decide)),
      ← hvd,
      show stripComment v.data = stripCommentGo true v.data from rfl,
      stripCommentGo_eq_self (fun c hc => bool_pred_ne (hvint c hc) (by decide)) true,
      trimRightL_eq_self hvnospace,
      show expandL p l v.data = expandGo p l ExpSt.normal v.data from rfl,
      (expandGo_no_dollar p l hvnd).1, mkData]
  · -- double-quoted line
    have hdata : (renderEntry k v).data
        = k.data ++ '=' :: '"' :: (escapeDQ v.data ++ ['"']) := by
      unfold renderEntry
      rw [if_neg hint, String.data_append, String.data_append, String.data_append,
        String.data_append]
      simp [List.append_assoc]
    rw [hdata]
    have htriml : trimLeftL (k.data ++ '=' :: '"' :: (escapeDQ v.data ++ ['"']))
        = k.data ++ '=' :: '"' :: (escapeDQ v.data ++ ['"']) :=
      trimLeftL_append_fix hkltrim (by decide) _
    have hsplit : splitSep (stripExport (trimLeftL
        (k.data ++ '=' :: '"' :: (escapeDQ v.data ++ ['"']))))
        = some (k.data, '"' :: (escapeDQ v.data ++ ['"'])) := by
      rw [htriml, stripExport_trimmedKey hkexp, splitSep_keySafe hksafe]
    rw [parseLineL_eq_of_split p l hsplit, hktrim,
      trimL_edges _ (by decide) (by decide), parseValue_dquote,
      show escapeDQ v.data ++ ['"'] = escapeDQ v.data ++ '"' :: [] from rfl,
      extractQuoted_append (by decide) _ (qSafe_escapeDQ v.data) []]
    show Except.ok (k, String.mk (expandL p l (unescapeDQ (escapeDQ v.data))))
      = Except.ok (k, v)
    rw [show expandL p l (unescapeDQ (escapeDQ v.data))
          = expandGo p l ExpSt.normal (unescapeDQ (escapeDQ v.data)) from rfl,
      (expand_unescape_escape p l v.data).1, mkData]

/-! ## Round-trip lemmas: the line splitter on serialized text -/

theorem splitGo_end (acc : List Char) (q : Option Char) (sep : Bool) :
    splitGo [] acc q sep = [acc.reverse] := rfl

theorem splitGo_newline (rest acc : List Char) (sep : Bool) :
    splitGo ('\n' :: rest) acc none sep = acc.reverse :: splitGo rest [] none false := by
  conv_lhs => unfold splitGo
  simp

theorem splitGo_sep (rest acc : List Char) :
    splitGo ('=' :: rest) acc none false = splitGo rest ('=' :: acc) none true := by
  conv_lhs => unfold splitGo
  simp

theorem splitGo_open_dq (rest acc : List Char) :
    splitGo ('"' :: rest) acc none true = splitGo rest ('"' :: acc) (some '"') true := by
  conv_lhs => unfold splitGo
  simp

theorem splitGo_close_dq (rest acc : List Char) (sep : Bool) :
    splitGo ('"' :: rest) acc (some '"') sep = splitGo rest ('"' :: acc) none sep := by
  conv_lhs => unfold splitGo
  simp

theorem splitGo_step_false {c : Char} (h1 : ¬(c = '\\')) (h2 : ¬(c = '\n'))
    (h3 : ¬(c = '=')) (h4 : ¬(c = ':')) (rest acc : List Char) :
    splitGo (c :: rest) acc none false = splitGo rest (c :: acc) none false := by
  conv_lhs => unfold splitGo
  simp [h1, h2, h3, h4]

theorem splitGo_step_true {c : Char} (h1 : ¬(c = '\\')) (h2 : ¬(c = '\n'))
    (h3 : ¬(c = '=')) (h4 : ¬(c = ':')) (h5 : ¬(c = '"')) (h6 : ¬(c = '\''))
    (rest acc : List Char) :
    splitGo (c :: rest) acc none true = splitGo rest (c :: acc) none true := by
  conv_lhs => unfold splitGo
  simp [h1, h2, h3, h4, h5, h6]

theorem splitGo_esc_pair (c2 : Char) (q : Char) (rest acc : List Char) (sep : Bool) :
    splitGo ('\\' :: c2 :: rest) acc (some q) sep
      = splitGo rest (c2 :: '\\' :: acc) (some q) sep := by
  conv_lhs => unfold splitGo
  simp

theorem splitGo_esc_pair_none {c2 : Char} (h : ¬(c2 = '\n')) (rest acc : List Char)
    (sep : Bool) :
    splitGo ('\\' :: c2 :: rest) acc none sep
      = splitGo rest (c2 :: '\\' :: acc) none sep := by
  conv_lhs => unfold splitGo
  simp [h]

theorem splitGo_step_inquote {c q : Char} (h1 : ¬(c = '\\')) (h2 : ¬(c = q))
    (rest acc : List Char) (sep : Bool) :
    splitGo (c :: rest) acc (some q) sep = splitGo rest (c :: acc) (some q) sep := by
  conv_lhs => unfold splitGo
  simp [h1, h2]

/-- The splitter carries a `keySepSafe` run (escape pairs included) into
the accumulator without seeing a separator or a line break. -/
theorem splitGo_keySafe : ∀ {kd : List Char}, keySepSafe kd = true →
    ∀ (rest acc : List Char),
      splitGo (kd ++ rest) acc none false = splitGo rest (kd.reverse ++ acc) none false
  | [] => by
      intro _ rest acc
      simp
  | c :: ks => by
      intro h rest acc
      by_cases hb : c = '\\'
      · subst hb
        unfold keySepSafe at h
        cases ks with
        | nil => simp at h
        | cons c2 ks2 =>
            have h' : ¬(c2 = '\n') ∧ keySepSafe ks2 = true := by
              rw [if_pos rfl] at h
              simp only [Bool.and_eq_true_iff, Bool.not_eq_eq_eq_not, Bool.not_true,
                decide_eq_false_iff_not] at h
              exact h
            rw [List.cons_append, List.cons_append, splitGo_esc_pair_none h'.1,
              splitGo_keySafe h'.2]
            simp
      · have h' : ¬(c = '=') ∧ ¬(c = ':') ∧ ¬(c = '\n') ∧ keySepSafe ks = true := by
          unfold keySepSafe at h
          rw [if_neg hb] at h
          simp only [Bool.and_eq_true_iff, Bool.not_eq_eq_eq_not, Bool.not_true,
            decide_eq_false_iff_not] at h
          exact ⟨h.1.1.1, h.1.1.2, h.1.2, h.2⟩
        rw [List.cons_append, splitGo_step_false hb h'.2.2.1 h'.1 h'.2.1,
          splitGo_keySafe h'.2.2.2]
        simp

/-- The splitter carries a run of integer-literal characters (after the
separator) into the accumulator. -/
theorem splitGo_intchars {vd : List Char} (h : ∀ c ∈ vd, isIntChar c = true) :
    ∀ (rest acc : List Char),
      splitGo (vd ++ rest) acc none true = splitGo rest (vd.reverse ++ acc) none true := by
  induction vd with
  | nil => intro rest acc; simp
  | cons c ks ih =>
      intro rest acc
      have hc := h c (by simp)
      rw [List.cons_append,
        splitGo_step_true (bool_pred_ne hc (by decide)) (bool_pred_ne hc (by decide))
          (bool_pred_ne hc (by decide)) (bool_pred_ne hc (by decide))
          (bool_pred_ne hc (by decide)) (bool_pred_ne hc (by decide)),
        ih (fun x hx => h x (by simp [hx]))]
      simp

/-- The splitter runs through serializer-escaped text without leaving the
open double-quote region. -/
theorem splitGo_escaped (v : List Char) :
    ∀ (rest acc : List Char),
      splitGo (escapeDQ v ++ rest) acc (some '"') true
        = splitGo rest ((escapeDQ v).reverse ++ acc) (some '"') true := by
  induction v with
  | nil => intro rest acc; simp [escapeDQ]
  | cons c s ih =>
      intro rest acc
      unfold escapeDQ
      by_cases h1 : c = '\n'
      · rw [if_pos h1, List.cons_append, List.cons_append, splitGo_esc_pair, ih]
        simp
      · rw [if_neg h1]
        by_cases h2 : c = '\r'
        · rw [if_pos h2, List.cons_append, List.cons_append, splitGo_esc_pair, ih]
          simp
        · rw [if_neg h2]
          by_cases h3 : (c = '"' || c = '\\' || c = '!' || c = '$') = true
          · rw [if_pos h3, List.cons_append, List.cons_append, splitGo_esc_pair, ih]
            simp
          · rw [if_neg h3]
            simp only [Bool.or_eq_true_iff, decide_eq_true_eq] at h3
            push_neg at h3
            rw [List.cons_append, splitGo_step_inquote h3.1.1.2 h3.1.1.1, ih]
            simp

/-- The splitter consumes one whole serialized line, ending outside any
quote region with the separator seen. -/
theorem splitGo_renderEntry {k : String} (hk : plainKey k = true) (v : String) :
    ∀ (rest acc : List Char),
      splitGo ((renderEntry k v).data ++ rest) acc none false
        = splitGo rest ((renderEntry k v).data.reverse ++ acc) none true := by
  have hksafe : keySepSafe k.data = true := by
    unfold plainKey at hk
    simp only [Bool.and_eq_true_iff, decide_eq_true_eq] at hk
    exact hk.1.1.2
  intro rest acc
  by_cases hint : isIntLiteral v = true
  · obtain ⟨hvne, hvint⟩ := intLiteral_chars hint
    have hdata : (renderEntry k v).data = k.data ++ '=' :: v.data := by
      unfold renderEntry
      rw [if_pos hint, String.data_append, String.data_append, List.append_assoc]
      rfl
    rw [hdata, List.append_assoc, splitGo_keySafe hksafe, List.cons_append,
      splitGo_sep, splitGo_intchars hvint]
    simp [List.reverse_append]
  · have hdata : (renderEntry k v).data
        = k.data ++ '=' :: '"' :: (escapeDQ v.data ++ ['"']) := by
      unfold renderEntry
      rw [if_neg hint, String.data_append, String.data_append, String.data_append,
        String.data_append]
      simp [List.append_assoc]
    rw [hdata, List.append_assoc, splitGo_keySafe hksafe, List.cons_append,
      splitGo_sep, List.cons_append, splitGo_open_dq, List.append_assoc,
      List.cons_append, List.nil_append, splitGo_escaped, splitGo_close_dq]
    simp [List.reverse_append]

/-- A serialized line is already trimmed and starts with a non-`#`
character: its key's first character, or the separator when the key is
empty. -/
theorem renderEntry_plain {k : String} (hk : plainKey k = true) (v : String) :
    trimL (renderEntry k v).data = (renderEntry k v).data ∧
    ∃ c0, (renderEntry k v).data.head? = some c0 ∧ ¬(c0 = '#') := by
  unfold plainKey at hk
  simp only [Bool.and_eq_true_iff, decide_eq_true_eq, bne_iff_ne, ne_eq] at hk
  have hktrim : trimL k.data = k.data := hk.1.1.1
  have hkhash : ¬(k.data.head? = some '#') := hk.2
  obtain ⟨c0, krest, hkd, hc0sp, hc0hash⟩ :
      ∃ c0 krest, k.data ++ ['='] = c0 :: krest ∧ isSpaceChar c0 = false ∧ ¬(c0 = '#') := by
    cases hkd : k.data with
    | nil => exact ⟨'=', [], rfl, by decide, by decide⟩
    | cons a l =>
        have hfix : trimLeftL (a :: l) = a :: l := by
          rw [← hkd]
          exact trimLeftL_fix_of_trimL_fix hktrim
        refine ⟨a, l ++ ['='], rfl, head_nonspace_of_trimLeftL_fix hfix, ?_⟩
        intro ha
        apply hkhash
        rw [hkd, ha]
        rfl
  by_cases hint : isIntLiteral v = true
  · obtain ⟨hvne, hvint⟩ := intLiteral_chars hint
    rcases List.eq_nil_or_concat v.data with hnil | ⟨vinit, vlast, hvd⟩
    · exact absurd hnil hvne
    have hlast : isIntChar vlast = true := hvint vlast (by rw [hvd]; simp)
    have hlastsp : isSpaceChar vlast = false :=
      isSpace_false_of_pred hlast (by decide) (by decide) (by decide)
    have hdata : (renderEntry k v).data = k.data ++ '=' :: v.data := by
      unfold renderEntry
      rw [if_pos hint, String.data_append, String.data_append, List.append_assoc]
      rfl
    have hline : (renderEntry k v).data = c0 :: ((krest ++ vinit) ++ [vlast]) := by
      rw [hdata, hvd, List.concat_eq_append, show k.data ++ '=' :: (vinit ++ [vlast])
          = (k.data ++ ['=']) ++ (vinit ++ [vlast]) by simp, hkd]
      simp [List.append_assoc]
    refine ⟨?_, ⟨c0, ?_, hc0hash⟩⟩
    · rw [hline, trimL_edges _ hc0sp hlastsp]
    · rw [hline]
      rfl
  · have hdata : (renderEntry k v).data
        = k.data ++ '=' :: '"' :: (escapeDQ v.data ++ ['"']) := by
      unfold renderEntry
      rw [if_neg hint, String.data_append, String.data_append, String.data_append,
        String.data_append]
      simp [List.append_assoc]
    have hline : (renderEntry k v).data
        = c0 :: ((krest ++ '"' :: escapeDQ v.data) ++ ['"']) := by
      rw [hdata, show k.data ++ '=' :: '"' :: (escapeDQ v.data ++ ['"'])
          = (k.data ++ ['=']) ++ '"' :: (escapeDQ v.data ++ ['"']) by simp, hkd]
      simp [List.append_assoc]
    refine ⟨?_, ⟨c0, ?_, hc0hash⟩⟩
    · rw [hline, trimL_edges _ hc0sp (by decide)]
    · rw [hline]
      rfl

/-- A serialized line survives the blank/comment filter. -/
theorem renderEntry_filter_true {k : String} (hk : plainKey k = true) (v : String) :
    (!(trimL (renderEntry k v).data).isEmpty
      && ((trimL (renderEntry k v).data).head? != some '#')) = true := by
  obtain ⟨htrim, c0, hhead, h0⟩ := renderEntry_plain hk v
  rw [htrim]
  have hne : ¬((renderEntry k v).data = []) := by
    intro hnil
    rw [hnil] at hhead
    cases hhead
  rw [hhead]
  simp [List.isEmpty_iff, hne, h0]

/-- The line splitter recovers the serialized lines of a nonempty entry
list joined by newlines. -/
theorem splitGo_joinRendered :
    ∀ (e : String × String) (rest : List (String × String)),
      (∀ x ∈ e :: rest, plainKey x.1 = true) →
      splitGo (joinLines ((e :: rest).map (fun x => (renderEntry x.1 x.2).data))) [] none false
        = (e :: rest).map (fun x => (renderEntry x.1 x.2).data)
  | e, [] => by
      intro h
      rw [show joinLines ([e].map (fun x => (renderEntry x.1 x.2).data))
          = (renderEntry e.1 e.2).data from rfl,
        show (renderEntry e.1 e.2).data = (renderEntry e.1 e.2).data ++ [] from
          (List.append_nil _).symm,
        splitGo_renderEntry (h e (by simp)) e.2]
      rw [splitGo_end]
      simp
  | e, e2 :: rest2 => by
      intro h
      rw [show joinLines ((e :: e2 :: rest2).map (fun x => (renderEntry x.1 x.2).data))
          = (renderEntry e.1 e.2).data
            ++ '\n' :: joinLines ((e2 :: rest2).map (fun x => (renderEntry x.1 x.2).data))
          from rfl,
        splitGo_renderEntry (h e (by simp)) e.2, splitGo_newline,
        splitGo_joinRendered e2 rest2 (fun x hx => h x (by simp at hx ⊢; tauto))]
      simp

/-- `logicalLines` recovers exactly the serialized lines of an entry list. -/
theorem logicalLines_rendered (entries : List (String × String))
    (hk : ∀ e ∈ entries, plainKey e.1 = true) :
    logicalLines (joinLines (entries.map (fun e => (renderEntry e.1 e.2).data)))
      = entries.map (fun e => (renderEntry e.1 e.2).data) := by
  cases entries with
  | nil => rfl
  | cons e rest =>
      unfold logicalLines
      rw [splitGo_joinRendered e rest hk]
      refine List.filter_eq_self.mpr ?_
      intro line hline
      obtain ⟨x, hx, hxeq⟩ := List.mem_map.mp hline
      rw [← hxeq]
      exact renderEntry_filter_true (hk x hx) x.2

/-! ## Round-trip lemmas: the document fold and the final theorem -/

theorem setEnv_append {acc : Env} {k : String} (h : lookupEnv acc k = none) (v : String) :
    setEnv acc k v = acc ++ [(k, v)] := by
  induction acc with
  | nil => rfl
  | cons e rest ih =>
      obtain ⟨k', v'⟩ := e
      by_cases hk : k' = k
      · rw [hk] at h
        simp [lookupEnv] at h
      · unfold setEnv
        rw [if_neg hk]
        unfold lookupEnv at h
        rw [if_neg hk] at h
        rw [ih h]
        rfl

theorem lookupEnv_cons (k' v' : String) (rest : Env) (q : String) :
    lookupEnv ((k', v') :: rest) q = if k' = q then some v' else lookupEnv rest q := rfl

theorem lookupEnv_append_right {acc1 : Env} {q : String} (acc2 : Env)
    (h : lookupEnv acc1 q = none) :
    lookupEnv (acc1 ++ acc2) q = lookupEnv acc2 q := by
  induction acc1 with
  | nil => rfl
  | cons e rest ih =>
      obtain ⟨k', v'⟩ := e
      rw [lookupEnv_cons] at h
      rw [List.cons_append, lookupEnv_cons]
      by_cases hk : k' = q
      · rw [if_pos hk] at h
        cases h
      · rw [if_neg hk] at h ⊢
        exact ih h

theorem parseLinesGo_render (l : Lookup) :
    ∀ (entries : List (String × String)) (acc : Env),
      (∀ e ∈ entries, plainKey e.1 = true) →
      (entries.map (fun e => e.1)).Nodup →
      (∀ e ∈ entries, lookupEnv acc e.1 = none) →
      parseLinesGo l (entries.map (fun e => (renderEntry e.1 e.2).data)) acc
        = Except.ok (acc ++ entries) := by
  intro entries
  induction entries with
  | nil =>
      intro acc _ _ _
      simp [parseLinesGo]
  | cons e rest ih =>
      intro acc hk hnd hacc
      obtain ⟨k, v⟩ := e
      rw [List.map_cons]
      unfold parseLinesGo
      rw [renderEntry_parses (hk (k, v) (by simp)) v acc l]
      show parseLinesGo l (rest.map (fun e => (renderEntry e.1 e.2).data)) (setEnv acc k v)
        = Except.ok (acc ++ (k, v) :: rest)
      rw [setEnv_append (hacc (k, v) (by simp)) v]
      simp only [List.map_cons, List.nodup_cons] at hnd
      rw [ih (acc ++ [(k, v)]) (fun x hx => hk x (by simp [hx])) hnd.2 ?_]
      · rw [List.append_assoc]
        rfl
      · intro x hx
        have hxk : ¬(x.1 = k) := by
          intro heq
          apply hnd.1
          rw [← heq]
          exact List.mem_map.mpr ⟨x, hx, rfl⟩
        rw [lookupEnv_append_right [(k, v)] (hacc x (by simp [hx]))]
        unfold lookupEnv
        rw [if_neg (fun hh => hxk hh.symm)]
        rfl

theorem lookupEnv_mapped (f : String → String) (q : String) :
    ∀ ks : List String,
      lookupEnv (ks.map (fun k => (k, f k))) q = if q ∈ ks then some (f q) else none := by
  intro ks
  induction ks with
  | nil => simp [lookupEnv]
  | cons k rest ih =>
      rw [List.map_cons, lookupEnv_cons]
      by_cases hk : k = q
      · subst hk
        simp
      · have hqk : ¬(q = k) := fun hh => hk hh.symm
        rw [if_neg hk, ih]
        by_cases hq : q ∈ rest
        · rw [if_pos hq, if_pos (List.mem_cons.mpr (Or.inr hq))]
        · rw [if_neg hq, if_neg (by simp [hqk, hq])]

theorem lookupEnv_isSome_of_mem_keys {m : Env} {q : String}
    (h : q ∈ m.map (fun e => e.1)) : (lookupEnv m q).isSome = true := by
  induction m with
  | nil => simp at h
  | cons e rest ih =>
      obtain ⟨k', v'⟩ := e
      unfold lookupEnv
      by_cases hk : k' = q
      · rw [if_pos hk]
        rfl
      · rw [if_neg hk]
        apply ih
        simp only [List.map_cons, List.mem_cons] at h
        rcases h with h1 | h2
        · exact absurd h1.symm hk
        · exact h2

theorem lookupEnv_none_of_not_mem_keys {m : Env} {q : String}
    (h : ¬(q ∈ m.map (fun e => e.1))) : lookupEnv m q = none := by
  induction m with
  | nil => rfl
  | cons e rest ih =>
      obtain ⟨k', v'⟩ := e
      simp only [List.map_cons, List.mem_cons] at h
      push_neg at h
      unfold lookupEnv
      rw [if_neg (fun hh => h.1 hh.symm)]
      exact ih h.2

theorem lookupEnv_mem {m : Env} {q v : String} (h : lookupEnv m q = some v) :
    (q, v) ∈ m := by
  induction m with
  | nil => cases h
  | cons e rest ih =>
      obtain ⟨k', v'⟩ := e
      unfold lookupEnv at h
      by_cases hk : k' = q
      · rw [if_pos hk] at h
        injection h with h
        rw [← hk, ← h]
        exact List.mem_cons_self _ _
      · rw [if_neg hk] at h
        exact List.mem_cons.mpr (Or.inr (ih h))

/-- The keys of `sortedEntries m` are the sorted keys of `m`. -/
theorem sortedEntries_keys (m : Env) :
    (sortedEntries m).map (fun e => e.1) = sortStr (m.map (fun e => e.1)) := by
  unfold sortedEntries
  rw [List.map_map]
  exact List.map_id _

/-- **C2 (amended).** The round-trip law, restricted as the counterexample
`roundtrip_fails_on_special_keys` forces: for every mapping with distinct
keys that are `plainKey` — already trimmed, safe for the separator scan (no
unescaped `=`/`:`, no newline, no dangling backslash), not beginning with
`#` and not beginning with `export` plus whitespace — and with arbitrary
values, `Unmarshal(Marshal(m))` succeeds and returns a mapping equal to
`m`: the entries are the sorted entries of `m`, and every key looks up to
the identical value. -/
theorem marshal_unmarshal_roundtrip (m : Env)
    (hnd : (m.map (fun e => e.1)).Nodup)
    (hk : ∀ e ∈ m, plainKey e.1 = true) :
    Unmarshal (Marshal m) = Except.ok (sortedEntries m) ∧
    ∀ q, lookupEnv (sortedEntries m) q = lookupEnv m q := by
  have hperm : (sortStr (m.map (fun e => e.1))).Perm (m.map (fun e => e.1)) :=
    sortStr_perm _
  have hmemkeys : ∀ x ∈ sortStr (m.map (fun e => e.1)), x ∈ m.map (fun e => e.1) :=
    fun x hx => hperm.mem_iff.mp hx
  have hsek : ∀ e ∈ sortedEntries m, plainKey e.1 = true := by
    intro e he
    unfold sortedEntries at he
    obtain ⟨x, hx, hxeq⟩ := List.mem_map.mp he
    obtain ⟨y, hy, hyeq⟩ := List.mem_map.mp (hmemkeys x hx)
    rw [← hxeq]
    simpa [← hyeq] using hk y hy
  have hsend : ((sortedEntries m).map (fun e => e.1)).Nodup := by
    rw [sortedEntries_keys]
    exact hperm.nodup_iff.mpr hnd
  constructor
  · show parseLinesGo (fun _ => none) (logicalLines (Marshal m).data) [] = _
    rw [show (Marshal m).data = joinLines (marshalLines m) from rfl]
    rw [show marshalLines m = (sortedEntries m).map (fun e => (renderEntry e.1 e.2).data) by
      unfold marshalLines sortedEntries
      rw [List.map_map]
      rfl]
    rw [logicalLines_rendered _ hsek]
    rw [parseLinesGo_render (fun _ => none) (sortedEntries m) [] hsek hsend
      (fun e _ => rfl)]
    rfl
  · intro q
    unfold sortedEntries
    rw [lookupEnv_mapped]
    by_cases hq : q ∈ sortStr (m.map (fun e => e.1))
    · rw [if_pos hq]
      have hsome := lookupEnv_isSome_of_mem_keys (hmemkeys q hq)
      cases hlk : lookupEnv m q with
      | none => rw [hlk] at hsome; cases hsome
      | some w => rfl
    · rw [if_neg hq]
      have : ¬(q ∈ m.map (fun e => e.1)) := fun hm => hq (hperm.mem_iff.mpr hm)
      rw [lookupEnv_none_of_not_mem_keys this]

/-- **C2, counterexample.** The round-trip law fails as stated, on three
key shapes that a successful `Parse` does produce.  (1) The `export` prefix
is stripped only once, so `export export FOO=2` parses to the key
`export FOO`; its serialized line `export FOO="2"` has the prefix stripped
again on re-parsing and comes back as `FOO`.  (2) The comment filter runs
before export-stripping, so `export #foo=2` parses to the key `#foo`; its
serialized line `#foo="2"` is dropped as a comment and the mapping comes
back empty.  (3) Trimming can expose a key ending in a backslash: `a\ =c`
parses to the key `a\`; in its serialized line `a\="c"` that backslash
escapes the separator, the re-parse finds no separator and fails with a
format error. -/
theorem roundtrip_fails_on_special_keys :
    (Parse "export export FOO=2" = Except.ok [("export FOO", "2")] ∧
      Unmarshal (Marshal [("export FOO", "2")]) = Except.ok [("FOO", "2")]) ∧
    (Parse "export #foo=2" = Except.ok [("#foo", "2")] ∧
      Unmarshal (Marshal [("#foo", "2")]) = Except.ok []) ∧
    (Parse "a\\ =c" = Except.ok [("a\\", "c")] ∧
      Unmarshal (Marshal [("a\\", "c")]) = Except.error "a\\=\"c\"") :=
  ⟨⟨by decide, by decide⟩, ⟨by decide, by decide⟩, ⟨by decide, by decide⟩⟩

/-- Witness for the amended C2: a concrete two-entry mapping (unsorted,
with a space inside one key, a `$` reference kept literal in its value,
and the empty key with an integer-literal value) round-trips exactly. -/
theorem marshal_unmarshal_roundtrip_witness :
    Unmarshal (Marshal [("A B", "$C"), ("", "5")])
      = Except.ok (sortedEntries [("A B", "$C"), ("", "5")]) ∧
    lookupEnv (sortedEntries [("A B", "$C"), ("", "5")]) "A B"
      = lookupEnv [("A B", "$C"), ("", "5")] "A B" :=
  ⟨(marshal_unmarshal_roundtrip [("A B", "$C"), ("", "5")]
      (by decide) (by decide)).1,
    (marshal_unmarshal_roundtrip [("A B", "$C"), ("", "5")]
      (by decide) (by decide)).2 "A B"⟩

end Dotenv
